import Mathlib

/-!
Static timing analysis tool (`Tools/Static Timing Analysis Tool/main.c`).

A shallow embedding of the circuit graph and of the three analysis passes
`compute_arrival_times`, `compute_required_times` and `compute_slack`.

Modelling conventions.
* A `double` is an exact rational (`ℚ`): `+` and `-` are exact, `fmax`/`fmin`
  are `max`/`min`.  `DBL_MAX` is the exact value of the largest finite double.
  Rounding is not modelled.
* A `Node*` is the index of the node in `circuit->nodes`; `inputs[0..input_count)`
  and `outputs[0..output_count)` are lists of such indices, so `input_count` and
  `output_count` are the lengths of these lists.
* The array `circuit->nodes[0..node_count)` is a list of nodes, `node_count` its
  length.  Reading past `node_count` yields a node without connections and
  writing past it does nothing; the loops of the program never do either.
-/

namespace STA

/-- The enum `GateType`. -/
inductive GateType where
  | GATE_AND
  | GATE_OR
  | GATE_NOT
  | GATE_NAND
  | GATE_NOR
  | GATE_XOR
  | INPUT
  | OUTPUT
  deriving DecidableEq, Repr

def MAX_NODES : Nat := 1000

def MAX_NAME_LENGTH : Nat := 50

/-- The largest finite `double`, `(2 - 2^(-52)) * 2^1023 = 2^1024 - 2^971`, written
out in decimal. -/
def DBL_MAX : ℚ :=
  179769313486231570814527423731704356798070567525844996598917476803157260780028538760589558632766878171540458953514382464234321326889464182768467546703537516986049910576551282076245490090389328944075868508455133942304583236903222948165808559332123348274797826204144723168738177180919299881250404026184124858368

/-- The struct `Node`; `input_count = inputs.length`, `output_count = outputs.length`. -/
structure Node where
  name : String
  type : GateType
  delay : ℚ
  arrival_time : ℚ
  required_time : ℚ
  slack : ℚ
  inputs : List Nat
  outputs : List Nat
  deriving DecidableEq

instance : Inhabited Node :=
  ⟨{ name := "", type := GateType.INPUT, delay := 0, arrival_time := 0,
     required_time := 0, slack := 0, inputs := [], outputs := [] }⟩

/-- The struct `Circuit`; `node_count = nodes.length`. -/
structure Circuit where
  nodes : List Node
  deriving DecidableEq

namespace Circuit

def node_count (c : Circuit) : Nat := c.nodes.length

/-- The node `circuit->nodes[i]`. -/
def node (c : Circuit) (i : Nat) : Node := c.nodes.getD i default

/-- A write through the pointer `circuit->nodes[i]`. -/
def setNode (c : Circuit) (i : Nat) (nd : Node) : Circuit := ⟨c.nodes.set i nd⟩

end Circuit

open GateType

/-- The function `create_circuit`: an empty node table. -/
def create_circuit : Circuit := ⟨[]⟩

/-- The node `create_node` allocates: the name is copied up to
`MAX_NAME_LENGTH - 1` characters, the timing fields are initialised and the delay
is chosen by the `switch` on the type. -/
def new_node (name : String) (type : GateType) : Node :=
  { name := ⟨name.data.take (MAX_NAME_LENGTH - 1)⟩
    type := type
    delay :=
      match type with
      | GATE_AND => 5 / 10
      | GATE_OR => 6 / 10
      | GATE_NOT => 3 / 10
      | GATE_NAND => 4 / 10
      | GATE_NOR => 5 / 10
      | GATE_XOR => 7 / 10
      | INPUT => 0
      | OUTPUT => 2 / 10
    arrival_time := 0
    required_time := DBL_MAX
    slack := 0
    inputs := []
    outputs := [] }

/-- The function `create_node`: refuses when the table is full, otherwise stores the new node at
index `node_count` and increments `node_count`.  Returns the circuit and the new
node (`none` for `NULL`). -/
def create_node (c : Circuit) (name : String) (type : GateType) : Circuit × Option Nat :=
  if c.node_count ≥ MAX_NODES then (c, none)
  else (⟨c.nodes ++ [new_node name type]⟩, some c.node_count)

/-- The function `add_connection`, its two `Node*` arguments being nodes of the
circuit: when both counts are below 4, appends `destination` to the fan-out of
`source`, then `source` to the fan-in of `destination`. -/
def add_connection (c : Circuit) (source destination : Nat) : Circuit :=
  if (c.node source).outputs.length < 4 ∧ (c.node destination).inputs.length < 4 then
    let c1 := c.setNode source
      { c.node source with outputs := (c.node source).outputs ++ [destination] }
    c1.setNode destination
      { c1.node destination with inputs := (c1.node destination).inputs ++ [source] }
  else c

/-- The inner loop of `compute_arrival_times`: the running `fmax` over the fan-in,
started at `0.0`. -/
def max_input_arrival (c : Circuit) (inputs : List Nat) : ℚ :=
  inputs.foldl (fun m p => max m ((c.node p).arrival_time + (c.node p).delay)) 0

/-- One iteration (index `i`) of the loop of `compute_arrival_times`. -/
def arrival_step (c : Circuit) (i : Nat) : Circuit :=
  if (c.node i).type = INPUT then
    c.setNode i { c.node i with arrival_time := 0 }
  else
    c.setNode i { c.node i with arrival_time := max_input_arrival c (c.node i).inputs }

/-- The function `compute_arrival_times`: the forward loop `i = 0 .. node_count - 1`. -/
def compute_arrival_times (c : Circuit) : Circuit :=
  (List.range c.node_count).foldl arrival_step c

/-- The first loop of `compute_required_times`: the pair
`(max_arrival_time, sink_node)`, updated on a strictly larger OUTPUT arrival. -/
def find_sink (c : Circuit) : ℚ × Option Nat :=
  (List.range c.node_count).foldl
    (fun acc i =>
      if (c.node i).type = OUTPUT ∧ (c.node i).arrival_time > acc.1 then
        ((c.node i).arrival_time, some i)
      else acc)
    (0, none)

/-- The body of the inner loop of `compute_required_times` for node `i` and its
successor `s`: `required_time = fmin(required_time, s->required_time - delay)`.
The subtraction is exact here, where the `double` subtraction of the source rounds. -/
def lower_required (i : Nat) (c : Circuit) (s : Nat) : Circuit :=
  c.setNode i
    { c.node i with
      required_time :=
        min (c.node i).required_time ((c.node s).required_time - (c.node i).delay) }

/-- One iteration (index `i`) of the backward loop: OUTPUT nodes are skipped, for
the others `required_time` is lowered through the fan-out, one successor at a time. -/
def required_step (c : Circuit) (i : Nat) : Circuit :=
  if (c.node i).type = OUTPUT then c
  else (c.node i).outputs.foldl (lower_required i) c

/-- The function `compute_required_times`: find the sink; when there is one, give it the
deadline and run the backward loop `i = node_count - 1 .. 0`. -/
def compute_required_times (c : Circuit) : Circuit :=
  match find_sink c with
  | (max_arrival_time, some sink) =>
    (List.range c.node_count).reverse.foldl required_step
      (c.setNode sink { c.node sink with required_time := max_arrival_time })
  | (_, none) => c

/-- One iteration of the loop of `compute_slack`. -/
def slack_step (c : Circuit) (i : Nat) : Circuit :=
  c.setNode i { c.node i with slack := (c.node i).required_time - (c.node i).arrival_time }

/-- The function `compute_slack`: the loop `i = 0 .. node_count - 1`. -/
def compute_slack (c : Circuit) : Circuit :=
  (List.range c.node_count).foldl slack_step c

/-- The analysis run of `main`: the three passes in order. -/
def run_sta (c : Circuit) : Circuit :=
  compute_slack (compute_required_times (compute_arrival_times c))

/-- The circuit built by `main`: IN1, IN2, AND1, NOT1, OUT and their four connections. -/
def sample_circuit : Circuit :=
  let c := create_circuit
  let c := (create_node c "IN1" INPUT).1
  let c := (create_node c "IN2" INPUT).1
  let c := (create_node c "AND1" GATE_AND).1
  let c := (create_node c "NOT1" GATE_NOT).1
  let c := (create_node c "OUT" OUTPUT).1
  let c := add_connection c 0 2
  let c := add_connection c 1 2
  let c := add_connection c 2 3
  add_connection c 3 4

/-- The circuits a program obtains from `create_circuit` with `create_node` and
`add_connection` alone: freshly built, never analysed. -/
inductive Built : Circuit → Prop where
  | create : Built create_circuit
  | node (c : Circuit) (name : String) (type : GateType) :
      Built c → Built (create_node c name type).1
  | conn (c : Circuit) (source destination : Nat) :
      Built c → source < c.node_count → destination < c.node_count →
      Built (add_connection c source destination)

/-- The circuits a program obtains from `create_circuit` with `create_node`,
`add_connection` and the three analysis passes, in any order. -/
inductive Reachable : Circuit → Prop where
  | create : Reachable create_circuit
  | node (c : Circuit) (name : String) (type : GateType) :
      Reachable c → Reachable (create_node c name type).1
  | conn (c : Circuit) (source destination : Nat) :
      Reachable c → source < c.node_count → destination < c.node_count →
      Reachable (add_connection c source destination)
  | arrival (c : Circuit) : Reachable c → Reachable (compute_arrival_times c)
  | required (c : Circuit) : Reachable c → Reachable (compute_required_times c)
  | slack (c : Circuit) : Reachable c → Reachable (compute_slack c)

/-- The structural facts every reachable circuit satisfies. -/
structure WellFormed (c : Circuit) : Prop where
  count_le : c.node_count ≤ MAX_NODES
  delay_nonneg : ∀ i, 0 ≤ (c.node i).delay
  delay_le : ∀ i, (c.node i).delay ≤ 7 / 10
  edge_iff : ∀ u v, v ∈ (c.node u).outputs ↔ u ∈ (c.node v).inputs
  outputs_lt : ∀ u, ∀ v ∈ (c.node u).outputs, v < c.node_count
  inputs_lt : ∀ v, ∀ u ∈ (c.node v).inputs, u < c.node_count

/-- All timing fields still hold the values `create_node` gave them. -/
def Fresh (c : Circuit) : Prop :=
  ∀ i, i < c.node_count →
    (c.node i).arrival_time = 0 ∧ (c.node i).required_time = DBL_MAX ∧ (c.node i).slack = 0

/-- The node tables agree except for `arrival_time` fields. -/
def SameButArrival (c c' : Circuit) : Prop :=
  c'.node_count = c.node_count ∧
    ∀ j, c'.node j = { c.node j with arrival_time := (c'.node j).arrival_time }

/-- The node tables agree except for `required_time` fields. -/
def SameButRequired (c c' : Circuit) : Prop :=
  c'.node_count = c.node_count ∧
    ∀ j, c'.node j = { c.node j with required_time := (c'.node j).required_time }

/-- The node tables agree except for `slack` fields. -/
def SameButSlack (c c' : Circuit) : Prop :=
  c'.node_count = c.node_count ∧
    ∀ j, c'.node j = { c.node j with slack := (c'.node j).slack }

/-- The node tables agree except for the three timing fields. -/
def SameButTiming (c c' : Circuit) : Prop :=
  c'.node_count = c.node_count ∧
    ∀ j, (c'.node j).name = (c.node j).name ∧ (c'.node j).type = (c.node j).type ∧
      (c'.node j).delay = (c.node j).delay ∧ (c'.node j).inputs = (c.node j).inputs ∧
      (c'.node j).outputs = (c.node j).outputs

/-- Node-creation order is topological: every connection recorded in a fan-out list
goes from an earlier-created node to a later-created one. -/
def Topological (c : Circuit) : Prop :=
  ∀ u, u < c.node_count → ∀ v ∈ (c.node u).outputs, u < v

/-- Every fan-in entry of a node was created before the node. -/
def FaninOrdered (c : Circuit) : Prop :=
  ∀ v p, p ∈ (c.node v).inputs → p < v

/-- The arrival time of node `v` is the maximum of `arrival_time + delay` over its
fan-in: an upper bound that one predecessor attains. -/
def ArrivalIsMaxAt (c : Circuit) (v : Nat) : Prop :=
  (∀ p ∈ (c.node v).inputs,
      (c.node p).arrival_time + (c.node p).delay ≤ (c.node v).arrival_time) ∧
    ∃ p ∈ (c.node v).inputs,
      (c.node v).arrival_time = (c.node p).arrival_time + (c.node p).delay

/-- The value `T` is the analysis deadline of `c`: the maximum `arrival_time` among
its OUTPUT nodes. -/
def IsDeadline (c : Circuit) (T : ℚ) : Prop :=
  (∃ i, i < c.node_count ∧ (c.node i).type = OUTPUT ∧ (c.node i).arrival_time = T) ∧
    ∀ i, i < c.node_count → (c.node i).type = OUTPUT → (c.node i).arrival_time ≤ T

/-- The state of `compute_required_times` when the backward loop starts, for the
sink `k` and the deadline `T`. -/
def with_deadline (c : Circuit) (k : Nat) (T : ℚ) : Circuit :=
  c.setNode k { c.node k with required_time := T }

/-- The chain IN → AND1 → NOT1 → OUT with its nodes created sink first. -/
def reversed_chain : Circuit :=
  let c := create_circuit
  let c := (create_node c "OUT" OUTPUT).1
  let c := (create_node c "NOT1" GATE_NOT).1
  let c := (create_node c "AND1" GATE_AND).1
  let c := (create_node c "IN" INPUT).1
  let c := add_connection c 3 2
  let c := add_connection c 2 1
  add_connection c 1 0

/-- One inverter driving two primary outputs: IN → NOT1, NOT1 → OUT1, NOT1 → OUT2. -/
def tied_outputs : Circuit :=
  let c := create_circuit
  let c := (create_node c "IN" INPUT).1
  let c := (create_node c "NOT1" GATE_NOT).1
  let c := (create_node c "OUT1" OUTPUT).1
  let c := (create_node c "OUT2" OUTPUT).1
  let c := add_connection c 0 1
  let c := add_connection c 1 2
  add_connection c 1 3

/-- The circuit has no cycle: its nodes can be ranked so that every connection goes
from a lower rank to a higher one. -/
def Acyclic (c : Circuit) : Prop :=
  ∃ rank : Nat → Nat, ∀ u, u < c.node_count → ∀ v ∈ (c.node u).outputs, rank u < rank v

/-- The required time of node `v` is the minimum of `required_time(s) - delay(v)` over
its fan-out: a lower bound that one successor attains. -/
def RequiredIsMinAt (c : Circuit) (v : Nat) : Prop :=
  (∀ s ∈ (c.node v).outputs,
      (c.node v).required_time ≤ (c.node s).required_time - (c.node v).delay) ∧
    ∃ s ∈ (c.node v).outputs,
      (c.node v).required_time = (c.node s).required_time - (c.node v).delay

/-- The list `l` of node indices is a path of the circuit: each node is followed by
one of its fan-out successors. -/
def IsPath (c : Circuit) (l : List Nat) : Prop :=
  List.Chain' (fun u v => v ∈ (c.node u).outputs) l ∧ ∀ x ∈ l, x < c.node_count

/-- The list `l` is a path from node `a` to node `b`. -/
def IsPathFromTo (c : Circuit) (a b : Nat) (l : List Nat) : Prop :=
  IsPath c l ∧ l.head? = some a ∧ l.getLast? = some b

/-- The sum of the delays of the nodes of the path `l` other than its last node. -/
def path_delay (c : Circuit) (l : List Nat) : ℚ :=
  (l.dropLast.map (fun i => (c.node i).delay)).sum

/-- Every node has at most 4 fan-in entries and at most 4 fan-out entries. -/
def DegreeBounded (c : Circuit) : Prop :=
  ∀ j, (c.node j).inputs.length ≤ 4 ∧ (c.node j).outputs.length ≤ 4

/-- A circuit with one node named "A". -/
def one_named_a : Circuit := (create_node create_circuit "A" INPUT).1

/-- A circuit with a single AND gate and no connection. -/
def lone_gate : Circuit := (create_node create_circuit "G" GATE_AND).1

/-- Two nodes IN and NOT1 with `add_connection(IN, NOT1)` called twice. -/
def double_edge : Circuit :=
  let c := create_circuit
  let c := (create_node c "IN" INPUT).1
  let c := (create_node c "NOT1" GATE_NOT).1
  let c := add_connection c 0 1
  add_connection c 0 1

/-- The circuit after `k` calls `create_node(circuit, "N", INPUT)`. -/
def many_inputs (k : Nat) : Circuit :=
  (fun c => (create_node c "N" INPUT).1)^[k] create_circuit

/-- The order in which the loop `for (i = 0; i < node_count; i++)` of
`compute_arrival_times` visits the nodes; the loop of `compute_required_times` visits
them in the reverse of this order. -/
def forward_order (c : Circuit) : List Nat := List.range c.node_count

/-- Node `u` is visited before node `v` by the forward pass. -/
def ProcessedBefore (c : Circuit) (u v : Nat) : Prop :=
  (forward_order c).indexOf u < (forward_order c).indexOf v

/-- The circuit contains a cycle: a path with at least one connection that returns
to the node it starts from. -/
def HasCycle (c : Circuit) : Prop :=
  ∃ l, IsPath c l ∧ 2 ≤ l.length ∧ l.head? = l.getLast?

/-- The chain IN → AND1 → NOT1 → OUT, created in this order, with the output of NOT1
fed back to its ancestor AND1. -/
def feedback_loop : Circuit :=
  let c := create_circuit
  let c := (create_node c "IN" INPUT).1
  let c := (create_node c "AND1" GATE_AND).1
  let c := (create_node c "NOT1" GATE_NOT).1
  let c := (create_node c "OUT" OUTPUT).1
  let c := add_connection c 0 1
  let c := add_connection c 1 2
  let c := add_connection c 2 1
  add_connection c 2 3

/-- The circuit IN → NOT1 → OUT1, NOT1 → AND1 → OUT2, built in one go and never
analysed. -/
def staged_fresh : Circuit :=
  let c := create_circuit
  let c := (create_node c "IN" INPUT).1
  let c := (create_node c "NOT1" GATE_NOT).1
  let c := (create_node c "OUT1" OUTPUT).1
  let c := add_connection c 0 1
  let c := add_connection c 1 2
  let c := (create_node c "AND1" GATE_AND).1
  let c := (create_node c "OUT2" OUTPUT).1
  let c := add_connection c 1 3
  add_connection c 3 4

/-- The same circuit, analysed once when only IN → NOT1 → OUT1 existed, then extended
by AND1 and OUT2. -/
def staged_rerun : Circuit :=
  let c := create_circuit
  let c := (create_node c "IN" INPUT).1
  let c := (create_node c "NOT1" GATE_NOT).1
  let c := (create_node c "OUT1" OUTPUT).1
  let c := add_connection c 0 1
  let c := add_connection c 1 2
  let c := run_sta c
  let c := (create_node c "AND1" GATE_AND).1
  let c := (create_node c "OUT2" OUTPUT).1
  let c := add_connection c 1 3
  add_connection c 3 4

/-- The lowest index below `n` at which `p` holds, if there is one. -/
def first_below (p : Nat → Bool) : Nat → Option Nat
  | 0 => none
  | n + 1 =>
    match first_below p n with
    | some i => some i
    | none => if p n then some n else none

/-- Modelled from the spec: the predecessor choice of `find_critical_paths`, a
function `main.c` declares and does not define. Following §4.5, the predecessor of
`v` on the critical path is the fan-in entry `p` with
`arrival_time(p) + delay(p) = arrival_time(v)`, ties broken by lowest node index. -/
def critical_pred (c : Circuit) (v : Nat) : Option Nat :=
  first_below
    (fun p => decide (p ∈ (c.node v).inputs ∧
      (c.node v).arrival_time = (c.node p).arrival_time + (c.node p).delay))
    c.node_count

/-- Modelled from the spec: the backward walk of `find_critical_paths`, a function
`main.c` declares and does not define. Following §4.5, the walk goes from `v` through
the chosen predecessors until an INPUT node is reached; it reports nothing when a
node has no such predecessor or when `fuel` steps were not enough. The path is
listed from the INPUT node to `v`. -/
def walk_back (c : Circuit) : Nat → Nat → Option (List Nat)
  | 0, _ => none
  | fuel + 1, v =>
    if (c.node v).type = INPUT then some [v]
    else
      match critical_pred c v with
      | none => none
      | some p => (walk_back c fuel p).map (fun l => l ++ [v])

/-- Modelled from the spec: the starting node of `find_critical_paths`, a function
`main.c` declares and does not define. Following §4.5, it is the OUTPUT node with
the global minimum slack, the lowest-indexed one in case of a tie. -/
def min_slack_output (c : Circuit) : Option Nat :=
  first_below
    (fun o => decide ((c.node o).type = OUTPUT ∧
      ∀ j, j < c.node_count → (c.node j).type = OUTPUT → (c.node o).slack ≤ (c.node j).slack))
    c.node_count

/-- Modelled from the spec: `find_critical_paths`, which `main.c` declares (line 50)
and does not define. Following §4.5, the critical path is found by walking backward
from the minimum-slack OUTPUT node to an INPUT node; `node_count` steps are allowed. -/
def find_critical_paths (c : Circuit) : Option (List Nat) :=
  match min_slack_output c with
  | none => none
  | some o => walk_back c c.node_count o

/-- The pair `(a, b)` is a step of a critical path: `a` is the lowest-indexed fan-in
entry of `b` with `arrival_time(b) = arrival_time(a) + delay(a)`. -/
def IsCriticalStep (c : Circuit) (a b : Nat) : Prop :=
  a ∈ (c.node b).inputs ∧
    (c.node b).arrival_time = (c.node a).arrival_time + (c.node a).delay ∧
    ∀ p ∈ (c.node b).inputs,
      (c.node b).arrival_time = (c.node p).arrival_time + (c.node p).delay → a ≤ p

/-- The list `l` is a critical path: it starts at an INPUT node, ends at an OUTPUT
node of minimum slack, and each consecutive pair is a critical step. -/
def IsCriticalPath (c : Circuit) (l : List Nat) : Prop :=
  (∃ a, l.head? = some a ∧ a < c.node_count ∧ (c.node a).type = INPUT) ∧
    (∃ o, l.getLast? = some o ∧ o < c.node_count ∧ (c.node o).type = OUTPUT ∧
      ∀ j, j < c.node_count → (c.node j).type = OUTPUT →
        (c.node o).slack ≤ (c.node j).slack) ∧
    List.Chain' (IsCriticalStep c) l

/-- The intrinsic delay table as the specification words it (§4.3): AND 0.5, OR 0.6,
NOT 0.3, NAND 0.4, NOR 0.5, XOR 0.7, PrimaryInput 0.0, PrimaryOutput 0.2. -/
def spec_delay : GateType → ℚ
  | GATE_AND => 1 / 2
  | GATE_OR => 3 / 5
  | GATE_NOT => 3 / 10
  | GATE_NAND => 2 / 5
  | GATE_NOR => 1 / 2
  | GATE_XOR => 7 / 10
  | INPUT => 0
  | OUTPUT => 1 / 5

/-- An inverter NOT1 whose output is connected into an INPUT node IN. -/
def driven_input : Circuit :=
  let c := create_circuit
  let c := (create_node c "NOT1" GATE_NOT).1
  let c := (create_node c "IN" INPUT).1
  add_connection c 0 1

/-- The chain IN → NOT1 → OUT with a further gate AND1 fed by IN and driving
nothing. -/
def dangling_gate : Circuit :=
  let c := create_circuit
  let c := (create_node c "IN" INPUT).1
  let c := (create_node c "NOT1" GATE_NOT).1
  let c := (create_node c "OUT" OUTPUT).1
  let c := (create_node c "AND1" GATE_AND).1
  let c := add_connection c 0 1
  let c := add_connection c 1 2
  add_connection c 0 3

/-! ## Reading and writing the node table -/

namespace Circuit

@[simp] theorem node_count_setNode (c : Circuit) (i : Nat) (nd : Node) :
    (c.setNode i nd).node_count = c.node_count := by
  simp [setNode, node_count]

theorem node_setNode_self (c : Circuit) (i : Nat) (nd : Node) (h : i < c.node_count) :
    (c.setNode i nd).node i = nd := by
  simp [setNode, node, node_count] at *
  simp [List.getD_eq_getElem?_getD, h]

theorem node_setNode_of_ne (c : Circuit) (i j : Nat) (nd : Node) (h : i ≠ j) :
    (c.setNode i nd).node j = c.node j := by
  simp [setNode, node, List.getD_eq_getElem?_getD, List.getElem?_set_ne h]

theorem node_of_le (c : Circuit) (i : Nat) (h : c.node_count ≤ i) : c.node i = default := by
  simp [node, node_count, List.getD_eq_getElem?_getD] at *
  simp [List.getElem?_eq_none h]

theorem setNode_of_le (c : Circuit) (i : Nat) (nd : Node) (h : c.node_count ≤ i) :
    c.setNode i nd = c := by
  cases c with
  | mk l =>
    simp only [setNode, node_count] at *
    congr 1
    exact List.set_eq_of_length_le h

theorem ext_node (c c' : Circuit) (hn : c'.node_count = c.node_count)
    (h : ∀ j, j < c.node_count → c'.node j = c.node j) : c' = c := by
  cases c with
  | mk l =>
    cases c' with
    | mk l' =>
      simp only [node_count, node] at *
      congr 1
      apply List.ext_getElem hn
      intro j h1 h2
      have := h j h2
      simpa [List.getD_eq_getElem?_getD, List.getElem?_eq_getElem h1,
        List.getElem?_eq_getElem h2] using this

end Circuit

/-! ## Loops over the node table -/

/-- A loop body that writes only to the node it visits. -/
def LocalStep (step : Circuit → Nat → Circuit) : Prop :=
  ∀ c k j, j ≠ k → (step c k).node j = c.node j

theorem foldl_range_node_ge {step : Circuit → Nat → Circuit} (h : LocalStep step)
    (c : Circuit) (k j : Nat) (hkj : k ≤ j) :
    ((List.range k).foldl step c).node j = c.node j := by
  induction k with
  | zero => simp
  | succ k ih =>
    rw [List.range_succ, List.foldl_append]
    simp only [List.foldl_cons, List.foldl_nil]
    rw [h _ _ _ (by omega), ih (by omega)]

theorem foldl_range_node_lt {step : Circuit → Nat → Circuit} (h : LocalStep step)
    (c : Circuit) (m i : Nat) (him : i < m) :
    ((List.range m).foldl step c).node i = (step ((List.range i).foldl step c) i).node i := by
  induction m with
  | zero => omega
  | succ m ih =>
    rw [List.range_succ, List.foldl_append]
    simp only [List.foldl_cons, List.foldl_nil]
    by_cases hm : i = m
    · subst hm; rfl
    · rw [h _ _ _ hm, ih (by omega)]

/-- The state of a backward loop `i = n - 1 .. 0` once the indices `k ≤ i < n` are done. -/
def down_from (step : Circuit → Nat → Circuit) (c : Circuit) (n k : Nat) : Circuit :=
  (List.range' k (n - k)).foldr (fun i acc => step acc i) c

theorem reverse_foldl_eq_down_from (step : Circuit → Nat → Circuit) (c : Circuit) (n : Nat) :
    (List.range n).reverse.foldl step c = down_from step c n 0 := by
  simp [down_from, List.foldl_reverse, List.range_eq_range']

theorem down_from_self (step : Circuit → Nat → Circuit) (c : Circuit) (n : Nat) :
    down_from step c n n = c := by
  simp [down_from]

theorem down_from_step (step : Circuit → Nat → Circuit) (c : Circuit) (n k : Nat)
    (h : k < n) : down_from step c n k = step (down_from step c n (k + 1)) k := by
  unfold down_from
  have : n - k = (n - (k + 1)) + 1 := by omega
  rw [this, List.range'_succ]
  simp

theorem down_from_node_lt {step : Circuit → Nat → Circuit} (h : LocalStep step)
    (c : Circuit) (n k j : Nat) (hk : k ≤ n) (hjk : j < k) :
    (down_from step c n k).node j = c.node j := by
  induction hk using Nat.decreasingInduction with
  | self => rw [down_from_self]
  | of_succ m hm ih =>
    rw [down_from_step _ _ _ _ hm, h _ _ _ (by omega), ih (by omega)]

theorem down_from_node_ge {step : Circuit → Nat → Circuit} (h : LocalStep step)
    (c : Circuit) (n k i : Nat) (hki : k ≤ i) (hin : i < n) :
    (down_from step c n k).node i = (step (down_from step c n (i + 1)) i).node i := by
  induction hki using Nat.decreasingInduction with
  | self => rw [down_from_step _ _ _ _ hin]
  | of_succ m hm ih =>
    rw [down_from_step _ _ _ _ (by omega), h _ _ _ (by omega), ih]

/-! ## The construction operations -/

theorem node_default_fields :
    (default : Node).inputs = [] ∧ (default : Node).outputs = [] ∧
      (default : Node).delay = 0 := ⟨rfl, rfl, rfl⟩

theorem create_node_full (c : Circuit) (name : String) (type : GateType)
    (h : MAX_NODES ≤ c.node_count) : create_node c name type = (c, none) := by
  simp [create_node, h]

theorem create_node_fst (c : Circuit) (name : String) (type : GateType)
    (h : c.node_count < MAX_NODES) :
    (create_node c name type).1 = ⟨c.nodes ++ [new_node name type]⟩ := by
  have h' : ¬ (c.node_count ≥ MAX_NODES) := by omega
  rw [create_node, if_neg h']

theorem create_node_count (c : Circuit) (name : String) (type : GateType)
    (h : c.node_count < MAX_NODES) :
    (create_node c name type).1.node_count = c.node_count + 1 := by
  rw [create_node_fst c name type h]
  simp [Circuit.node_count]

theorem create_node_node_lt (c : Circuit) (name : String) (type : GateType) (j : Nat)
    (hj : j < c.node_count) : (create_node c name type).1.node j = c.node j := by
  unfold create_node
  split
  · rfl
  · simp only [Circuit.node, Circuit.node_count] at *
    simp [List.getD_eq_getElem?_getD, List.getElem?_append_left hj]

theorem create_node_node_new (c : Circuit) (name : String) (type : GateType)
    (h : c.node_count < MAX_NODES) :
    (create_node c name type).1.node c.node_count = new_node name type := by
  rw [create_node_fst c name type h]
  simp only [Circuit.node, Circuit.node_count]
  simp [List.getD_eq_getElem?_getD]

theorem new_node_delay_bounds (name : String) (type : GateType) :
    0 ≤ (new_node name type).delay ∧ (new_node name type).delay ≤ 7 / 10 := by
  cases type <;> simp [new_node] <;> norm_num

theorem add_connection_count (c : Circuit) (s d : Nat) :
    (add_connection c s d).node_count = c.node_count := by
  unfold add_connection
  split <;> simp

theorem add_connection_node (c : Circuit) (s d : Nat) (hs : s < c.node_count)
    (hd : d < c.node_count)
    (hg : (c.node s).outputs.length < 4 ∧ (c.node d).inputs.length < 4) (j : Nat) :
    (add_connection c s d).node j =
      { c.node j with
        outputs := if j = s then (c.node j).outputs ++ [d] else (c.node j).outputs
        inputs := if j = d then (c.node j).inputs ++ [s] else (c.node j).inputs } := by
  simp only [add_connection, hg, and_self, if_true]
  by_cases hjd : j = d
  · subst hjd
    rw [Circuit.node_setNode_self _ _ _ (by simpa using hd)]
    by_cases hjs : j = s
    · subst hjs
      rw [Circuit.node_setNode_self _ _ _ hs]
      simp
    · rw [Circuit.node_setNode_of_ne _ _ _ _ (Ne.symm hjs)]
      simp [hjs]
  · rw [Circuit.node_setNode_of_ne _ _ _ _ (Ne.symm hjd)]
    by_cases hjs : j = s
    · subst hjs
      rw [Circuit.node_setNode_self _ _ _ hs]
      simp [hjd]
    · rw [Circuit.node_setNode_of_ne _ _ _ _ (Ne.symm hjs)]
      simp [hjd, hjs]

/-! ## What a pass leaves unchanged -/

theorem foldl_rel {R : Circuit → Circuit → Prop} {step : Circuit → Nat → Circuit}
    (hr : ∀ c, R c c) (ht : ∀ a b c, R a b → R b c → R a c) (hs : ∀ c i, R c (step c i))
    (l : List Nat) (c : Circuit) : R c (l.foldl step c) := by
  induction l generalizing c with
  | nil => exact hr c
  | cons x xs ih => exact ht _ _ _ (hs c x) (ih (step c x))

theorem SameButArrival.arrival_refl (c : Circuit) : SameButArrival c c := ⟨rfl, fun _ => rfl⟩

theorem SameButArrival.arrival_trans (a b c : Circuit) (h1 : SameButArrival a b)
    (h2 : SameButArrival b c) : SameButArrival a c := by
  refine ⟨h2.1.trans h1.1, fun j => ?_⟩
  rw [h2.2 j, h1.2 j]

theorem SameButRequired.required_refl (c : Circuit) : SameButRequired c c := ⟨rfl, fun _ => rfl⟩

theorem SameButRequired.required_trans (a b c : Circuit) (h1 : SameButRequired a b)
    (h2 : SameButRequired b c) : SameButRequired a c := by
  refine ⟨h2.1.trans h1.1, fun j => ?_⟩
  rw [h2.2 j, h1.2 j]

theorem SameButSlack.slack_refl (c : Circuit) : SameButSlack c c := ⟨rfl, fun _ => rfl⟩

theorem SameButSlack.slack_trans (a b c : Circuit) (h1 : SameButSlack a b)
    (h2 : SameButSlack b c) : SameButSlack a c := by
  refine ⟨h2.1.trans h1.1, fun j => ?_⟩
  rw [h2.2 j, h1.2 j]

theorem setNode_arrival_frame (c : Circuit) (i : Nat) (x : ℚ) :
    SameButArrival c (c.setNode i { c.node i with arrival_time := x }) := by
  refine ⟨by simp, fun j => ?_⟩
  by_cases hi : i < c.node_count
  · by_cases hj : i = j
    · subst hj; rw [Circuit.node_setNode_self _ _ _ hi]
    · rw [Circuit.node_setNode_of_ne _ _ _ _ hj]
  · rw [Circuit.setNode_of_le _ _ _ (by omega)]

theorem setNode_required_frame (c : Circuit) (i : Nat) (x : ℚ) :
    SameButRequired c (c.setNode i { c.node i with required_time := x }) := by
  refine ⟨by simp, fun j => ?_⟩
  by_cases hi : i < c.node_count
  · by_cases hj : i = j
    · subst hj; rw [Circuit.node_setNode_self _ _ _ hi]
    · rw [Circuit.node_setNode_of_ne _ _ _ _ hj]
  · rw [Circuit.setNode_of_le _ _ _ (by omega)]

theorem setNode_slack_frame (c : Circuit) (i : Nat) (x : ℚ) :
    SameButSlack c (c.setNode i { c.node i with slack := x }) := by
  refine ⟨by simp, fun j => ?_⟩
  by_cases hi : i < c.node_count
  · by_cases hj : i = j
    · subst hj; rw [Circuit.node_setNode_self _ _ _ hi]
    · rw [Circuit.node_setNode_of_ne _ _ _ _ hj]
  · rw [Circuit.setNode_of_le _ _ _ (by omega)]

theorem arrival_step_frame (c : Circuit) (i : Nat) : SameButArrival c (arrival_step c i) := by
  unfold arrival_step
  split <;> exact setNode_arrival_frame _ _ _

theorem arrival_step_local : LocalStep arrival_step := by
  intro c k j hjk
  unfold arrival_step
  split <;> exact Circuit.node_setNode_of_ne _ _ _ _ (Ne.symm hjk)

theorem compute_arrival_times_frame (c : Circuit) :
    SameButArrival c (compute_arrival_times c) :=
  foldl_rel SameButArrival.arrival_refl SameButArrival.arrival_trans arrival_step_frame _ c

theorem lower_required_frame (i : Nat) (c : Circuit) (s : Nat) :
    SameButRequired c (lower_required i c s) :=
  setNode_required_frame c i _

theorem required_step_frame (c : Circuit) (i : Nat) :
    SameButRequired c (required_step c i) := by
  unfold required_step
  split
  · exact SameButRequired.required_refl c
  · exact foldl_rel SameButRequired.required_refl SameButRequired.required_trans (lower_required_frame i) _ c

theorem lower_required_node_of_ne (i j : Nat) (hji : j ≠ i) (c : Circuit) (s : Nat) :
    (lower_required i c s).node j = c.node j :=
  Circuit.node_setNode_of_ne _ _ _ _ (Ne.symm hji)

theorem required_inner_local (i j : Nat) (hji : j ≠ i) (l : List Nat) (c : Circuit) :
    (l.foldl (lower_required i) c).node j = c.node j := by
  induction l generalizing c with
  | nil => rfl
  | cons x xs ih => rw [List.foldl_cons, ih, lower_required_node_of_ne i j hji]

theorem required_step_local : LocalStep required_step := by
  intro c k j hjk
  unfold required_step
  split
  · rfl
  · exact required_inner_local k j hjk _ c

theorem compute_required_times_frame (c : Circuit) :
    SameButRequired c (compute_required_times c) := by
  unfold compute_required_times
  split
  · exact SameButRequired.required_trans _ _ _ (setNode_required_frame c _ _)
      (foldl_rel SameButRequired.required_refl SameButRequired.required_trans required_step_frame _ _)
  · exact SameButRequired.required_refl c

theorem slack_step_frame (c : Circuit) (i : Nat) : SameButSlack c (slack_step c i) :=
  setNode_slack_frame _ _ _

theorem slack_step_local : LocalStep slack_step := by
  intro c k j hjk
  exact Circuit.node_setNode_of_ne _ _ _ _ (Ne.symm hjk)

theorem compute_slack_frame (c : Circuit) : SameButSlack c (compute_slack c) :=
  foldl_rel SameButSlack.slack_refl SameButSlack.slack_trans slack_step_frame _ c

theorem SameButArrival.arrival_timing {c c' : Circuit} (h : SameButArrival c c') :
    SameButTiming c c' := by
  refine ⟨h.1, fun j => ?_⟩
  rw [h.2 j]; exact ⟨rfl, rfl, rfl, rfl, rfl⟩

theorem SameButRequired.required_timing {c c' : Circuit} (h : SameButRequired c c') :
    SameButTiming c c' := by
  refine ⟨h.1, fun j => ?_⟩
  rw [h.2 j]; exact ⟨rfl, rfl, rfl, rfl, rfl⟩

theorem SameButSlack.slack_timing {c c' : Circuit} (h : SameButSlack c c') :
    SameButTiming c c' := by
  refine ⟨h.1, fun j => ?_⟩
  rw [h.2 j]; exact ⟨rfl, rfl, rfl, rfl, rfl⟩

theorem SameButTiming.timing_trans {a b c : Circuit} (h1 : SameButTiming a b)
    (h2 : SameButTiming b c) : SameButTiming a c := by
  refine ⟨h2.1.trans h1.1, fun j => ?_⟩
  obtain ⟨a1, a2, a3, a4, a5⟩ := h1.2 j
  obtain ⟨b1, b2, b3, b4, b5⟩ := h2.2 j
  exact ⟨b1.trans a1, b2.trans a2, b3.trans a3, b4.trans a4, b5.trans a5⟩

theorem SameButArrival.arrival_keeps_required {c c' : Circuit} (h : SameButArrival c c') (j : Nat) :
    (c'.node j).required_time = (c.node j).required_time := by rw [h.2 j]

theorem SameButArrival.arrival_keeps_slack {c c' : Circuit} (h : SameButArrival c c') (j : Nat) :
    (c'.node j).slack = (c.node j).slack := by rw [h.2 j]

theorem SameButRequired.required_keeps_arrival {c c' : Circuit} (h : SameButRequired c c') (j : Nat) :
    (c'.node j).arrival_time = (c.node j).arrival_time := by rw [h.2 j]

theorem SameButRequired.required_keeps_slack {c c' : Circuit} (h : SameButRequired c c') (j : Nat) :
    (c'.node j).slack = (c.node j).slack := by rw [h.2 j]

theorem SameButSlack.slack_keeps_arrival {c c' : Circuit} (h : SameButSlack c c') (j : Nat) :
    (c'.node j).arrival_time = (c.node j).arrival_time := by rw [h.2 j]

theorem SameButSlack.slack_keeps_required {c c' : Circuit} (h : SameButSlack c c') (j : Nat) :
    (c'.node j).required_time = (c.node j).required_time := by rw [h.2 j]

theorem WellFormed.of_timing {c c' : Circuit} (h : SameButTiming c c') (w : WellFormed c) :
    WellFormed c' where
  count_le := by rw [h.1]; exact w.count_le
  delay_nonneg i := by rw [(h.2 i).2.2.1]; exact w.delay_nonneg i
  delay_le i := by rw [(h.2 i).2.2.1]; exact w.delay_le i
  edge_iff u v := by rw [(h.2 u).2.2.2.2, (h.2 v).2.2.2.1]; exact w.edge_iff u v
  outputs_lt u v hv := by
    rw [(h.2 u).2.2.2.2] at hv; rw [h.1]; exact w.outputs_lt u v hv
  inputs_lt v u hu := by
    rw [(h.2 v).2.2.2.1] at hu; rw [h.1]; exact w.inputs_lt v u hu

/-! ## Well-formedness of reachable circuits -/

theorem create_circuit_node (j : Nat) : create_circuit.node j = default := by
  simp [create_circuit, Circuit.node]

theorem WellFormed.create : WellFormed create_circuit where
  count_le := by simp [create_circuit, Circuit.node_count, MAX_NODES]
  delay_nonneg i := by rw [create_circuit_node]; exact le_of_eq rfl
  delay_le i := by rw [create_circuit_node, node_default_fields.2.2]; norm_num
  edge_iff u v := by simp [create_circuit_node, node_default_fields]
  outputs_lt u v hv := by simp [create_circuit_node, node_default_fields] at hv
  inputs_lt v u hu := by simp [create_circuit_node, node_default_fields] at hu

theorem create_node_node (c : Circuit) (name : String) (type : GateType)
    (h : c.node_count < MAX_NODES) (j : Nat) :
    (create_node c name type).1.node j =
      if j = c.node_count then new_node name type else c.node j := by
  by_cases hj : j = c.node_count
  · subst hj; simp [create_node_node_new c name type h]
  · simp only [hj, if_false]
    by_cases hlt : j < c.node_count
    · exact create_node_node_lt c name type j hlt
    · rw [Circuit.node_of_le _ _ (by rw [create_node_count c name type h]; omega),
        Circuit.node_of_le _ _ (by omega)]

theorem WellFormed.of_create_node {c : Circuit} (w : WellFormed c) (name : String)
    (type : GateType) : WellFormed (create_node c name type).1 := by
  by_cases h : c.node_count < MAX_NODES
  · have hnew : (new_node name type).inputs = [] ∧ (new_node name type).outputs = [] :=
      ⟨rfl, rfl⟩
    have hout : (c.node c.node_count).outputs = [] := by
      rw [Circuit.node_of_le _ _ (le_refl _)]; rfl
    have hin : (c.node c.node_count).inputs = [] := by
      rw [Circuit.node_of_le _ _ (le_refl _)]; rfl
    refine ⟨?_, ?_, ?_, ?_, ?_, ?_⟩
    · rw [create_node_count c name type h]; omega
    · intro i
      rw [create_node_node c name type h]
      split
      · exact (new_node_delay_bounds name type).1
      · exact w.delay_nonneg i
    · intro i
      rw [create_node_node c name type h]
      split
      · exact (new_node_delay_bounds name type).2
      · exact w.delay_le i
    · intro u v
      rw [create_node_node c name type h, create_node_node c name type h]
      by_cases hu : u = c.node_count <;> by_cases hv : v = c.node_count
      · simp [hu, hv, hnew]
      · subst hu
        simp only [if_true, hv, if_false, hnew.2, List.not_mem_nil, false_iff]
        intro hmem
        have := (w.edge_iff _ _).mpr hmem
        rw [hout] at this; simp at this
      · subst hv
        simp only [if_true, hu, if_false, hnew.1, List.not_mem_nil, iff_false]
        intro hmem
        have := (w.edge_iff _ _).mp hmem
        rw [hin] at this; simp at this
      · simp only [hu, hv, if_false]; exact w.edge_iff u v
    · intro u v hv
      rw [create_node_node c name type h] at hv
      rw [create_node_count c name type h]
      split at hv
      · rw [hnew.2] at hv; simp at hv
      · have := w.outputs_lt u v hv; omega
    · intro v u hu
      rw [create_node_node c name type h] at hu
      rw [create_node_count c name type h]
      split at hu
      · rw [hnew.1] at hu; simp at hu
      · have := w.inputs_lt v u hu; omega
  · rw [create_node_full c name type (by omega)]; exact w

theorem WellFormed.of_add_connection {c : Circuit} (w : WellFormed c) (s d : Nat)
    (hs : s < c.node_count) (hd : d < c.node_count) : WellFormed (add_connection c s d) := by
  by_cases hg : (c.node s).outputs.length < 4 ∧ (c.node d).inputs.length < 4
  · have hnode := add_connection_node c s d hs hd hg
    refine ⟨?_, ?_, ?_, ?_, ?_, ?_⟩
    · rw [add_connection_count]; exact w.count_le
    · intro i; rw [hnode i]; exact w.delay_nonneg i
    · intro i; rw [hnode i]; exact w.delay_le i
    · intro u v
      rw [hnode u, hnode v]
      simp only
      have := w.edge_iff u v
      by_cases hu : u = s <;> by_cases hv : v = d <;> simp [hu, hv] <;> aesop
    · intro u v hv
      rw [hnode u] at hv
      rw [add_connection_count]
      simp only at hv
      split at hv
      · rcases List.mem_append.mp hv with h1 | h1
        · exact w.outputs_lt u v h1
        · simp at h1; omega
      · exact w.outputs_lt u v hv
    · intro v u hu
      rw [hnode v] at hu
      rw [add_connection_count]
      simp only at hu
      split at hu
      · rcases List.mem_append.mp hu with h1 | h1
        · exact w.inputs_lt v u h1
        · simp at h1; omega
      · exact w.inputs_lt v u hu
  · have : add_connection c s d = c := by simp [add_connection, hg]
    rw [this]; exact w

theorem Built.reachable {c : Circuit} (h : Built c) : Reachable c := by
  induction h with
  | create => exact Reachable.create
  | node c name type _ ih => exact Reachable.node c name type ih
  | conn c s d _ hs hd ih => exact Reachable.conn c s d ih hs hd

theorem Reachable.wellFormed {c : Circuit} (h : Reachable c) : WellFormed c := by
  induction h with
  | create => exact WellFormed.create
  | node c name type _ ih => exact ih.of_create_node name type
  | conn c s d _ hs hd ih => exact ih.of_add_connection s d hs hd
  | arrival c _ ih => exact WellFormed.of_timing (compute_arrival_times_frame c).arrival_timing ih
  | required c _ ih => exact WellFormed.of_timing (compute_required_times_frame c).required_timing ih
  | slack c _ ih => exact WellFormed.of_timing (compute_slack_frame c).slack_timing ih

theorem Built.wf {c : Circuit} (h : Built c) : WellFormed c :=
  h.reachable.wellFormed

theorem Built.fresh {c : Circuit} (h : Built c) : Fresh c := by
  induction h with
  | create => intro i hi; simp [create_circuit, Circuit.node_count] at hi
  | node c name type _ ih =>
    by_cases hc : c.node_count < MAX_NODES
    · intro i hi
      rw [create_node_count c name type hc] at hi
      rw [create_node_node c name type hc]
      split
      · exact ⟨rfl, rfl, rfl⟩
      · exact ih i (by omega)
    · rw [create_node_full c name type (by omega)]; exact ih
  | conn c s d _ hs hd ih =>
    by_cases hg : (c.node s).outputs.length < 4 ∧ (c.node d).inputs.length < 4
    · intro i hi
      rw [add_connection_count] at hi
      rw [add_connection_node c s d hs hd hg i]
      exact ih i hi
    · have : add_connection c s d = c := by simp [add_connection, hg]
      rw [this]; exact ih

/-! ## Running maxima and minima -/

theorem foldl_max_init_le (g : Nat → ℚ) (l : List Nat) (a : ℚ) :
    a ≤ l.foldl (fun m p => max m (g p)) a := by
  induction l generalizing a with
  | nil => exact le_refl a
  | cons x xs ih => exact le_trans (le_max_left a (g x)) (ih _)

theorem foldl_max_mem_le (g : Nat → ℚ) (l : List Nat) (a : ℚ) (p : Nat) (hp : p ∈ l) :
    g p ≤ l.foldl (fun m p => max m (g p)) a := by
  induction l generalizing a with
  | nil => simp at hp
  | cons x xs ih =>
    rcases List.mem_cons.mp hp with h | h
    · subst h; exact le_trans (le_max_right a (g p)) (foldl_max_init_le g xs _)
    · exact ih _ h

theorem foldl_max_attained (g : Nat → ℚ) (l : List Nat) (a : ℚ) :
    l.foldl (fun m p => max m (g p)) a = a ∨
      ∃ p ∈ l, l.foldl (fun m p => max m (g p)) a = g p := by
  induction l generalizing a with
  | nil => exact Or.inl rfl
  | cons x xs ih =>
    rcases ih (max a (g x)) with h | ⟨p, hp, h⟩
    · rcases max_choice a (g x) with h2 | h2
      · left; rw [List.foldl_cons, h, h2]
      · right; exact ⟨x, List.mem_cons_self _ _, by rw [List.foldl_cons, h, h2]⟩
    · right; exact ⟨p, List.mem_cons_of_mem _ hp, h⟩

theorem foldl_max_congr (g g' : Nat → ℚ) (l : List Nat) (a : ℚ)
    (h : ∀ p ∈ l, g p = g' p) :
    l.foldl (fun m p => max m (g p)) a = l.foldl (fun m p => max m (g' p)) a := by
  induction l generalizing a with
  | nil => rfl
  | cons x xs ih =>
    rw [List.foldl_cons, List.foldl_cons, h x (List.mem_cons_self _ _)]
    exact ih _ (fun p hp => h p (List.mem_cons_of_mem _ hp))

theorem foldl_min_le_init (g : Nat → ℚ) (l : List Nat) (a : ℚ) :
    l.foldl (fun m p => min m (g p)) a ≤ a := by
  induction l generalizing a with
  | nil => exact le_refl a
  | cons x xs ih => exact le_trans (ih _) (min_le_left a (g x))

theorem foldl_min_le_mem (g : Nat → ℚ) (l : List Nat) (a : ℚ) (p : Nat) (hp : p ∈ l) :
    l.foldl (fun m p => min m (g p)) a ≤ g p := by
  induction l generalizing a with
  | nil => simp at hp
  | cons x xs ih =>
    rcases List.mem_cons.mp hp with h | h
    · subst h; exact le_trans (foldl_min_le_init g xs _) (min_le_right a (g p))
    · exact ih _ h

theorem foldl_min_attained (g : Nat → ℚ) (l : List Nat) (a : ℚ) :
    l.foldl (fun m p => min m (g p)) a = a ∨
      ∃ p ∈ l, l.foldl (fun m p => min m (g p)) a = g p := by
  induction l generalizing a with
  | nil => exact Or.inl rfl
  | cons x xs ih =>
    rcases ih (min a (g x)) with h | ⟨p, hp, h⟩
    · rcases min_choice a (g x) with h2 | h2
      · left; rw [List.foldl_cons, h, h2]
      · right; exact ⟨x, List.mem_cons_self _ _, by rw [List.foldl_cons, h, h2]⟩
    · right; exact ⟨p, List.mem_cons_of_mem _ hp, h⟩

theorem foldl_min_congr (g g' : Nat → ℚ) (l : List Nat) (a : ℚ)
    (h : ∀ p ∈ l, g p = g' p) :
    l.foldl (fun m p => min m (g p)) a = l.foldl (fun m p => min m (g' p)) a := by
  induction l generalizing a with
  | nil => rfl
  | cons x xs ih =>
    rw [List.foldl_cons, List.foldl_cons, h x (List.mem_cons_self _ _)]
    exact ih _ (fun p hp => h p (List.mem_cons_of_mem _ hp))

/-! ## The forward pass -/

theorem arrival_prefix_frame (c : Circuit) (k : Nat) :
    SameButArrival c ((List.range k).foldl arrival_step c) :=
  foldl_rel SameButArrival.arrival_refl SameButArrival.arrival_trans arrival_step_frame _ c

theorem arrival_step_node_self (c : Circuit) (i : Nat) (hi : i < c.node_count) :
    ((arrival_step c i).node i).arrival_time =
      if (c.node i).type = INPUT then 0 else max_input_arrival c (c.node i).inputs := by
  unfold arrival_step
  split <;> rw [Circuit.node_setNode_self _ _ _ hi]

/-- The value the forward pass leaves in node `i`: the running maximum over its
fan-in, read in the state reached when the loop arrives at `i`. -/
theorem arrival_value (c : Circuit) (i : Nat) (hi : i < c.node_count) :
    ((compute_arrival_times c).node i).arrival_time =
      if (c.node i).type = INPUT then 0
      else max_input_arrival ((List.range i).foldl arrival_step c) (c.node i).inputs := by
  have hf := arrival_prefix_frame c i
  unfold compute_arrival_times
  rw [foldl_range_node_lt arrival_step_local c _ i hi,
    arrival_step_node_self _ i (by rw [hf.1]; exact hi)]
  rw [hf.2 i]

theorem arrival_prefix_node_lt (c : Circuit) (i p : Nat) (hp : p < i)
    (hi : i ≤ c.node_count) :
    ((List.range i).foldl arrival_step c).node p = (compute_arrival_times c).node p := by
  unfold compute_arrival_times
  rw [foldl_range_node_lt arrival_step_local c _ p hp,
    foldl_range_node_lt arrival_step_local c _ p (by omega)]

theorem arrival_prefix_node_ge (c : Circuit) (i p : Nat) (hp : i ≤ p) :
    ((List.range i).foldl arrival_step c).node p = c.node p :=
  foldl_range_node_ge arrival_step_local c i p hp

/-- In a circuit whose fan-in entries all precede their node, the forward pass
leaves in every non-INPUT node the running maximum over the final values. -/
theorem arrival_value_ordered (c : Circuit) (ho : FaninOrdered c) (i : Nat)
    (hi : i < c.node_count) :
    ((compute_arrival_times c).node i).arrival_time =
      if ((compute_arrival_times c).node i).type = INPUT then 0
      else max_input_arrival (compute_arrival_times c)
        ((compute_arrival_times c).node i).inputs := by
  have hf := (compute_arrival_times_frame c).arrival_timing
  rw [arrival_value c i hi, (hf.2 i).2.1, (hf.2 i).2.2.2.1]
  split
  · rfl
  · unfold max_input_arrival
    apply foldl_max_congr
    intro p hp
    rw [arrival_prefix_node_lt c i p (ho i p hp) (le_of_lt hi)]

theorem max_input_arrival_nonneg (c : Circuit) (l : List Nat) : 0 ≤ max_input_arrival c l :=
  foldl_max_init_le _ l 0

theorem arrival_nonneg (c : Circuit) (i : Nat) :
    0 ≤ ((compute_arrival_times c).node i).arrival_time := by
  by_cases hi : i < c.node_count
  · rw [arrival_value c i hi]
    split
    · exact le_refl 0
    · exact max_input_arrival_nonneg _ _
  · rw [Circuit.node_of_le _ _ (by rw [(compute_arrival_times_frame c).1]; omega)]
    exact le_refl 0

theorem Topological.lt {c : Circuit} (h : Topological c) (u v : Nat)
    (hv : v ∈ (c.node u).outputs) : u < v := by
  by_cases hu : u < c.node_count
  · exact h u hu v hv
  · rw [Circuit.node_of_le _ _ (by omega)] at hv
    simp [node_default_fields] at hv

theorem WellFormed.faninOrdered {c : Circuit} (w : WellFormed c) (h : Topological c) :
    FaninOrdered c :=
  fun v p hp => h.lt p v ((w.edge_iff p v).mpr hp)

/-- The forward pass on a topologically created circuit with non-negative delays. -/
theorem arrival_is_max_of_ordered (c : Circuit) (ho : FaninOrdered c)
    (hd : ∀ i, 0 ≤ (c.node i).delay) (v : Nat) (hv : v < c.node_count)
    (ht : ((compute_arrival_times c).node v).type ≠ INPUT)
    (hne : ((compute_arrival_times c).node v).inputs ≠ []) :
    ArrivalIsMaxAt (compute_arrival_times c) v := by
  have hval := arrival_value_ordered c ho v hv
  rw [if_neg ht] at hval
  have hf := (compute_arrival_times_frame c).arrival_timing
  have hg : ∀ p, 0 ≤ ((compute_arrival_times c).node p).arrival_time +
      ((compute_arrival_times c).node p).delay := by
    intro p
    have := arrival_nonneg c p
    have := hd p
    rw [← (hf.2 p).2.2.1] at this
    linarith
  constructor
  · intro p hp
    rw [hval]
    exact foldl_max_mem_le _ _ 0 p hp
  · rcases foldl_max_attained
      (fun p => ((compute_arrival_times c).node p).arrival_time +
        ((compute_arrival_times c).node p).delay)
      ((compute_arrival_times c).node v).inputs 0 with h0 | ⟨p, hp, h⟩
    · obtain ⟨p, hp⟩ := List.exists_mem_of_ne_nil _ hne
      refine ⟨p, hp, ?_⟩
      have h1 := foldl_max_mem_le
        (fun p => ((compute_arrival_times c).node p).arrival_time +
          ((compute_arrival_times c).node p).delay)
        ((compute_arrival_times c).node v).inputs 0 p hp
      rw [h0] at h1
      have h2 := hg p
      rw [hval]
      unfold max_input_arrival
      rw [h0]
      exact le_antisymm h2 h1
    · exact ⟨p, hp, by rw [hval]; exact h⟩

/-! ## The search for the sink -/

theorem find_sink_prefix (c : Circuit) (k : Nat) :
    let r := (List.range k).foldl
      (fun (acc : ℚ × Option Nat) i =>
        if (c.node i).type = OUTPUT ∧ (c.node i).arrival_time > acc.1 then
          ((c.node i).arrival_time, some i)
        else acc) (0, none)
    (r.2 = none → r.1 = 0) ∧
    (∀ i, i < k → (c.node i).type = OUTPUT → (c.node i).arrival_time ≤ r.1) ∧
    (∀ j, r.2 = some j → j < k ∧ (c.node j).type = OUTPUT ∧ (c.node j).arrival_time = r.1 ∧
      0 < r.1 ∧ ∀ i, i < j → (c.node i).type = OUTPUT → (c.node i).arrival_time < r.1) := by
  induction k with
  | zero =>
    refine ⟨fun _ => rfl, fun i hi => by omega, fun j hj => by simp at hj⟩
  | succ k ih =>
    simp only [List.range_succ, List.foldl_append, List.foldl_cons, List.foldl_nil]
    simp only at ih
    generalize (List.range k).foldl
      (fun (acc : ℚ × Option Nat) i =>
        if (c.node i).type = OUTPUT ∧ (c.node i).arrival_time > acc.1 then
          ((c.node i).arrival_time, some i)
        else acc) (0, none) = r at ih ⊢
    obtain ⟨h1, h2, h3⟩ := ih
    by_cases hc : (c.node k).type = OUTPUT ∧ (c.node k).arrival_time > r.1
    · rw [if_pos hc]
      refine ⟨fun h => by simp at h, ?_, ?_⟩
      · intro i hi ht
        rcases Nat.lt_succ_iff_lt_or_eq.mp hi with h | h
        · exact le_trans (h2 i h ht) (le_of_lt hc.2)
        · subst h; exact le_refl _
      · intro j hj
        simp only [Option.some.injEq] at hj
        subst hj
        refine ⟨by omega, hc.1, rfl, ?_, ?_⟩
        · rcases hr : r.2 with _ | j'
          · have := h1 hr; simp only; linarith [hc.2]
          · have := (h3 j' hr).2.2.2.1; simp only; linarith [hc.2]
        · intro i hi ht
          exact lt_of_le_of_lt (h2 i hi ht) hc.2
    · rw [if_neg hc]
      refine ⟨h1, ?_, ?_⟩
      · intro i hi ht
        rcases Nat.lt_succ_iff_lt_or_eq.mp hi with h | h
        · exact h2 i h ht
        · subst h
          by_contra hlt
          exact hc ⟨ht, not_le.mp hlt⟩
      · intro j hj
        obtain ⟨a, b⟩ := h3 j hj
        exact ⟨by omega, b⟩

theorem find_sink_none (c : Circuit) (h : (find_sink c).2 = none) :
    (find_sink c).1 = 0 ∧
      ∀ i, i < c.node_count → (c.node i).type = OUTPUT → (c.node i).arrival_time ≤ 0 := by
  have := find_sink_prefix c c.node_count
  simp only at this
  obtain ⟨h1, h2, _⟩ := this
  have h0 := h1 h
  refine ⟨h0, fun i hi ht => ?_⟩
  have := h2 i hi ht
  rw [h0] at this
  exact this

theorem find_sink_some (c : Circuit) (k : Nat) (h : (find_sink c).2 = some k) :
    k < c.node_count ∧ (c.node k).type = OUTPUT ∧ (c.node k).arrival_time = (find_sink c).1 ∧
      0 < (find_sink c).1 ∧
      (∀ i, i < c.node_count → (c.node i).type = OUTPUT →
        (c.node i).arrival_time ≤ (find_sink c).1) ∧
      ∀ i, i < k → (c.node i).type = OUTPUT → (c.node i).arrival_time < (find_sink c).1 := by
  have := find_sink_prefix c c.node_count
  simp only at this
  obtain ⟨_, h2, h3⟩ := this
  obtain ⟨a, b, d, e, f⟩ := h3 k h
  exact ⟨a, b, d, e, h2, f⟩

theorem find_sink_congr (c c' : Circuit) (hn : c'.node_count = c.node_count)
    (h : ∀ i, (c'.node i).type = (c.node i).type ∧
      (c'.node i).arrival_time = (c.node i).arrival_time) :
    find_sink c' = find_sink c := by
  unfold find_sink
  rw [hn]
  congr 1
  funext acc i
  rw [(h i).1, (h i).2]

theorem compute_required_times_none (c : Circuit) (h : (find_sink c).2 = none) :
    compute_required_times c = c := by
  unfold compute_required_times
  rcases hf : find_sink c with ⟨m, s⟩
  rw [hf] at h
  simp only at h
  subst h
  rfl

theorem compute_required_times_some (c : Circuit) (k : Nat) (h : (find_sink c).2 = some k) :
    compute_required_times c =
      down_from required_step (with_deadline c k (find_sink c).1) c.node_count 0 := by
  unfold compute_required_times
  rcases hf : find_sink c with ⟨m, s⟩
  rw [hf] at h
  simp only at h
  subst h
  simp only
  rw [reverse_foldl_eq_down_from]
  rfl

/-! ## The backward pass -/

theorem with_deadline_frame (c : Circuit) (k : Nat) (T : ℚ) :
    SameButRequired c (with_deadline c k T) :=
  setNode_required_frame c k T

theorem with_deadline_node_self (c : Circuit) (k : Nat) (T : ℚ) (hk : k < c.node_count) :
    ((with_deadline c k T).node k).required_time = T := by
  unfold with_deadline
  rw [Circuit.node_setNode_self _ _ _ hk]

theorem with_deadline_node_of_ne (c : Circuit) (k j : Nat) (T : ℚ) (h : j ≠ k) :
    (with_deadline c k T).node j = c.node j :=
  Circuit.node_setNode_of_ne _ _ _ _ (Ne.symm h)

theorem down_from_rel {R : Circuit → Circuit → Prop} {step : Circuit → Nat → Circuit}
    (hr : ∀ c, R c c) (ht : ∀ a b c, R a b → R b c → R a c) (hs : ∀ c i, R c (step c i))
    (c : Circuit) (n k : Nat) : R c (down_from step c n k) := by
  unfold down_from
  generalize List.range' k (n - k) = l
  induction l with
  | nil => exact hr c
  | cons x xs ih => exact ht _ _ _ ih (hs _ x)

theorem down_from_required_frame (c : Circuit) (n k : Nat) :
    SameButRequired c (down_from required_step c n k) :=
  down_from_rel SameButRequired.required_refl SameButRequired.required_trans required_step_frame c n k

theorem down_from_node_eq_final {step : Circuit → Nat → Circuit} (h : LocalStep step)
    (c : Circuit) (n k s : Nat) (hks : k ≤ s) (hs : s < n) :
    (down_from step c n k).node s = (down_from step c n 0).node s := by
  rw [down_from_node_ge h c n k s hks hs, down_from_node_ge h c n 0 s (Nat.zero_le _) hs]

theorem required_inner_value (i : Nat) (l : List Nat) (c : Circuit) (hi : i < c.node_count)
    (hl : i ∉ l) :
    ((l.foldl (lower_required i) c).node i).required_time =
      l.foldl (fun m s => min m ((c.node s).required_time - (c.node i).delay))
        (c.node i).required_time := by
  induction l generalizing c with
  | nil => rfl
  | cons x xs ih =>
    have hx : x ≠ i := fun h => hl (by simp [h])
    have hxs : i ∉ xs := fun h => hl (List.mem_cons_of_mem _ h)
    have hself : (lower_required i c x).node i = { c.node i with
        required_time :=
          min (c.node i).required_time ((c.node x).required_time - (c.node i).delay) } :=
      Circuit.node_setNode_self _ _ _ hi
    rw [List.foldl_cons, ih (lower_required i c x) (by simpa [lower_required] using hi) hxs,
      List.foldl_cons, hself]
    apply foldl_min_congr
    intro s hs
    have hsi : s ≠ i := fun h => hxs (h ▸ hs)
    rw [lower_required_node_of_ne i s hsi]

theorem required_step_value (c : Circuit) (i : Nat) (hi : i < c.node_count)
    (ht : (c.node i).type ≠ OUTPUT) (hl : i ∉ (c.node i).outputs) :
    ((required_step c i).node i).required_time =
      (c.node i).outputs.foldl
        (fun m s => min m ((c.node s).required_time - (c.node i).delay))
        (c.node i).required_time := by
  unfold required_step
  rw [if_neg ht]
  exact required_inner_value i _ c hi hl

theorem required_step_output (c : Circuit) (i : Nat) (ht : (c.node i).type = OUTPUT) :
    required_step c i = c := by
  unfold required_step
  rw [if_pos ht]

/-- The backward loop leaves every OUTPUT node as it found it. -/
theorem backward_output (c : Circuit) (i : Nat) (ht : (c.node i).type = OUTPUT) :
    (down_from required_step c c.node_count 0).node i = c.node i := by
  by_cases hi : i < c.node_count
  · rw [down_from_node_ge required_step_local c _ 0 i (Nat.zero_le _) hi]
    have hf := down_from_required_frame c c.node_count (i + 1)
    rw [required_step_output _ i (by rw [hf.2 i]; exact ht)]
    exact down_from_node_lt required_step_local c _ (i + 1) i (by omega) (by omega)
  · have hf := down_from_required_frame c c.node_count 0
    rw [Circuit.node_of_le _ _ (by rw [hf.1]; omega), Circuit.node_of_le _ _ (by omega)]

/-- In a topologically created circuit the backward loop leaves in every non-OUTPUT
node the running minimum, started at its previous value, over the final values of
its fan-out. -/
theorem backward_value (c : Circuit) (ho : Topological c) (i : Nat) (hi : i < c.node_count)
    (ht : (c.node i).type ≠ OUTPUT) :
    ((down_from required_step c c.node_count 0).node i).required_time =
      (c.node i).outputs.foldl
        (fun m s => min m
          (((down_from required_step c c.node_count 0).node s).required_time -
            (c.node i).delay))
        (c.node i).required_time := by
  have hf := down_from_required_frame c c.node_count (i + 1)
  have hnode : (down_from required_step c c.node_count (i + 1)).node i = c.node i :=
    down_from_node_lt required_step_local c _ (i + 1) i (by omega) (by omega)
  rw [down_from_node_ge required_step_local c _ 0 i (Nat.zero_le _) hi,
    required_step_value _ i (by rw [hf.1]; exact hi) (by rw [hnode]; exact ht)
      (by rw [hnode]; exact fun h => absurd (ho i hi i h) (lt_irrefl i)),
    hnode]
  apply foldl_min_congr
  intro s hs
  have his : i < s := ho i hi s hs
  by_cases hsn : s < c.node_count
  · rw [down_from_node_eq_final required_step_local c _ (i + 1) s (by omega) hsn]
  · have hf0 := down_from_required_frame c c.node_count 0
    have h1 : (down_from required_step c c.node_count (i + 1)).node s = default :=
      Circuit.node_of_le _ _ (by rw [hf.1]; omega)
    have h2 : (down_from required_step c c.node_count 0).node s = default :=
      Circuit.node_of_le _ _ (by rw [hf0.1]; omega)
    rw [h1, h2]

/-! ## The slack pass -/

theorem slack_step_node_self (c : Circuit) (i : Nat) (hi : i < c.node_count) :
    ((slack_step c i).node i).slack =
      (c.node i).required_time - (c.node i).arrival_time := by
  unfold slack_step
  rw [Circuit.node_setNode_self _ _ _ hi]

theorem slack_value (c : Circuit) (i : Nat) (hi : i < c.node_count) :
    ((compute_slack c).node i).slack =
      (c.node i).required_time - (c.node i).arrival_time := by
  have hf : SameButSlack c ((List.range i).foldl slack_step c) :=
    foldl_rel SameButSlack.slack_refl SameButSlack.slack_trans slack_step_frame _ c
  unfold compute_slack
  rw [foldl_range_node_lt slack_step_local c _ i hi,
    slack_step_node_self _ i (by rw [hf.1]; exact hi), hf.2 i]

theorem DBL_MAX_eq : DBL_MAX = 2 ^ 1024 - 2 ^ 971 := by
  unfold DBL_MAX; norm_num

/-! ## The example circuits -/

theorem sample_built : Built sample_circuit :=
  Built.conn _ 3 4 (Built.conn _ 2 3 (Built.conn _ 1 2 (Built.conn _ 0 2
    (Built.node _ "OUT" OUTPUT (Built.node _ "NOT1" GATE_NOT (Built.node _ "AND1" GATE_AND
      (Built.node _ "IN2" INPUT (Built.node _ "IN1" INPUT Built.create)))))
    (by decide) (by decide)) (by decide) (by decide)) (by decide) (by decide))
    (by decide) (by decide)

theorem reversed_chain_built : Built reversed_chain :=
  Built.conn _ 1 0 (Built.conn _ 2 1 (Built.conn _ 3 2
    (Built.node _ "IN" INPUT (Built.node _ "AND1" GATE_AND (Built.node _ "NOT1" GATE_NOT
      (Built.node _ "OUT" OUTPUT Built.create))))
    (by decide) (by decide)) (by decide) (by decide)) (by decide) (by decide)

theorem tied_outputs_built : Built tied_outputs :=
  Built.conn _ 1 3 (Built.conn _ 1 2 (Built.conn _ 0 1
    (Built.node _ "OUT2" OUTPUT (Built.node _ "OUT1" OUTPUT (Built.node _ "NOT1" GATE_NOT
      (Built.node _ "IN" INPUT Built.create))))
    (by decide) (by decide)) (by decide) (by decide)) (by decide) (by decide)

theorem sample_topological : Topological sample_circuit := by
  unfold Topological; decide

theorem reversed_chain_acyclic : Acyclic reversed_chain :=
  ⟨fun i => 4 - i, by decide⟩

/-! ## C1: arrival time as the maximum over the fan-in -/

/-- C1, as stated, fails: in the acyclic chain IN → AND1 → NOT1 → OUT whose nodes
were created sink first, OUT (index 0) is visited before its predecessor NOT1 has
been computed, and ends with arrival 0.3 while NOT1 has arrival 0.5 and delay 0.3. -/
theorem C1_counterexample :
    Built reversed_chain ∧ Acyclic reversed_chain ∧
      ¬ (∀ v, v < reversed_chain.node_count →
          ((compute_arrival_times reversed_chain).node v).type ≠ INPUT →
          ((compute_arrival_times reversed_chain).node v).inputs ≠ [] →
          ArrivalIsMaxAt (compute_arrival_times reversed_chain) v) := by
  refine ⟨reversed_chain_built, reversed_chain_acyclic, fun h => ?_⟩
  have h0 := h 0 (by decide) (by with_unfolding_all decide) (by with_unfolding_all decide)
  revert h0
  unfold ArrivalIsMaxAt
  with_unfolding_all decide

/-- C1, amended: for every circuit built with `create_node` and `add_connection`
whose node-creation order is topological, after `compute_arrival_times` every
non-INPUT node with at least one fan-in predecessor has `arrival_time` equal to the
maximum over its predecessors `p` of `p.arrival_time + p.delay`. -/
theorem C1_arrival_is_max_when_topological (c : Circuit) (hb : Built c)
    (ht : Topological c) (v : Nat) (hv : v < c.node_count)
    (hty : ((compute_arrival_times c).node v).type ≠ INPUT)
    (hne : ((compute_arrival_times c).node v).inputs ≠ []) :
    ArrivalIsMaxAt (compute_arrival_times c) v :=
  arrival_is_max_of_ordered c (hb.wf.faninOrdered ht) hb.wf.delay_nonneg
    v hv hty hne

/-- C1 witness: the amended claim at AND1 (index 2) of the sample circuit. -/
theorem C1_arrival_is_max_when_topological_witness :
    ArrivalIsMaxAt (compute_arrival_times sample_circuit) 2 :=
  C1_arrival_is_max_when_topological sample_circuit sample_built sample_topological 2
    (by decide) (by with_unfolding_all decide) (by with_unfolding_all decide)

/-! ## C2, C4: the deadline at the OUTPUT nodes -/

theorem find_sink_of_deadline (c : Circuit) (T : ℚ) (hT : IsDeadline c T) (hpos : 0 < T) :
    ∃ k, (find_sink c).2 = some k ∧ (find_sink c).1 = T := by
  obtain ⟨⟨i, hi, hio, hia⟩, hmax⟩ := hT
  rcases h : (find_sink c).2 with _ | k
  · have := (find_sink_none c h).2 i hi hio
    rw [hia] at this
    exact absurd hpos (not_lt.mpr this)
  · obtain ⟨hk, hko, hka, -, hle, -⟩ := find_sink_some c k h
    refine ⟨k, rfl, le_antisymm ?_ ?_⟩
    · rw [← hka]; exact hmax k hk hko
    · rw [← hia]; exact hle i hi hio

theorem with_deadline_count (c : Circuit) (k : Nat) (T : ℚ) :
    (with_deadline c k T).node_count = c.node_count := by
  simp [with_deadline]

theorem required_of_sink (c : Circuit) (k : Nat) (h : (find_sink c).2 = some k) :
    ((compute_required_times c).node k).required_time = (find_sink c).1 ∧
      ∀ j, j ≠ k → (c.node j).type = OUTPUT → (compute_required_times c).node j = c.node j := by
  obtain ⟨hk, hko, -⟩ := find_sink_some c k h
  have hf := with_deadline_frame c k (find_sink c).1
  rw [compute_required_times_some c k h, ← with_deadline_count c k (find_sink c).1]
  constructor
  · rw [backward_output _ k (by rw [hf.2 k]; exact hko), with_deadline_node_self c k _ hk]
  · intro j hjk hjo
    rw [backward_output _ j (by rw [hf.2 j]; exact hjo), with_deadline_node_of_ne c k j _ hjk]

/-- The sink the analysis chooses, in terms of the deadline: when the largest OUTPUT
arrival `T` is positive, the lowest-indexed OUTPUT node with arrival `T` receives
`required_time = T` and every other OUTPUT node is left as it was. -/
theorem sink_required (c : Circuit) (T : ℚ) (hT : IsDeadline (compute_arrival_times c) T)
    (hpos : 0 < T) :
    ∃ k, k < c.node_count ∧ (c.node k).type = OUTPUT ∧
      ((compute_arrival_times c).node k).arrival_time = T ∧
      (∀ j, j < k → (c.node j).type = OUTPUT →
        ((compute_arrival_times c).node j).arrival_time < T) ∧
      ((compute_required_times (compute_arrival_times c)).node k).required_time = T ∧
      ∀ j, j ≠ k → (c.node j).type = OUTPUT →
        ((compute_required_times (compute_arrival_times c)).node j).required_time =
          (c.node j).required_time := by
  have hf := compute_arrival_times_frame c
  have hty : ∀ j, ((compute_arrival_times c).node j).type = (c.node j).type :=
    fun j => (hf.arrival_timing.2 j).2.1
  obtain ⟨k, hk, hm⟩ := find_sink_of_deadline _ T hT hpos
  obtain ⟨hkn, hko, hka, -, -, hfirst⟩ := find_sink_some _ k hk
  obtain ⟨hr1, hr2⟩ := required_of_sink _ k hk
  rw [hm] at hka hfirst hr1
  rw [hf.1] at hkn
  rw [hty] at hko
  refine ⟨k, hkn, hko, hka, ?_, hr1, ?_⟩
  · intro j hj hjo
    exact hfirst j hj (by rw [hty]; exact hjo)
  · intro j hjk hjo
    rw [hr2 j hjk (by rw [hty]; exact hjo), hf.arrival_keeps_required]

theorem run_sta_slack (c : Circuit) (i : Nat) (hi : i < c.node_count) :
    ((run_sta c).node i).slack =
      ((compute_required_times (compute_arrival_times c)).node i).required_time -
        ((compute_arrival_times c).node i).arrival_time := by
  unfold run_sta
  rw [slack_value _ i (by
    rw [(compute_required_times_frame _).1, (compute_arrival_times_frame c).1]; exact hi),
    (compute_required_times_frame _).required_keeps_arrival]

/-- C2, as stated, fails: with two OUTPUT nodes driven by the same inverter the
deadline is 0.3, OUT1 (index 2) is the sink and receives it, and OUT2 (index 3)
keeps `DBL_MAX`. -/
theorem C2_counterexample :
    Built tied_outputs ∧
      (∃ i, i < tied_outputs.node_count ∧ (tied_outputs.node i).type = OUTPUT) ∧
      ¬ (∀ T, IsDeadline (compute_arrival_times tied_outputs) T →
          ∀ i, i < tied_outputs.node_count → (tied_outputs.node i).type = OUTPUT →
            ((compute_required_times (compute_arrival_times tied_outputs)).node i).required_time
              = T) := by
  refine ⟨tied_outputs_built, ⟨2, by decide, by decide⟩, fun h => ?_⟩
  have hT : IsDeadline (compute_arrival_times tied_outputs) (3 / 10) := by
    unfold IsDeadline; with_unfolding_all decide
  have h3 := h (3 / 10) hT 3 (by decide) (by decide)
  revert h3
  with_unfolding_all decide

/-- C2, amended: for every circuit whose largest OUTPUT arrival time `T` (the
deadline) is positive, after `compute_arrival_times` and `compute_required_times`
the lowest-indexed OUTPUT node with arrival time `T` has `required_time = T`, and
every other OUTPUT node keeps the `required_time` it had before the run. -/
theorem C2_sink_required_is_deadline (c : Circuit) (T : ℚ)
    (hT : IsDeadline (compute_arrival_times c) T) (hpos : 0 < T) :
    ∃ k, k < c.node_count ∧ (c.node k).type = OUTPUT ∧
      ((compute_arrival_times c).node k).arrival_time = T ∧
      (∀ j, j < k → (c.node j).type = OUTPUT →
        ((compute_arrival_times c).node j).arrival_time < T) ∧
      ((compute_required_times (compute_arrival_times c)).node k).required_time = T ∧
      ∀ j, j ≠ k → (c.node j).type = OUTPUT →
        ((compute_required_times (compute_arrival_times c)).node j).required_time =
          (c.node j).required_time :=
  sink_required c T hT hpos

/-- C2 witness: the amended claim on the circuit with two tied OUTPUT nodes, whose
deadline is 0.3. -/
theorem C2_sink_required_is_deadline_witness :
    IsDeadline (compute_arrival_times tied_outputs) (3 / 10) ∧
    ∃ k, k < tied_outputs.node_count ∧ (tied_outputs.node k).type = OUTPUT ∧
      ((compute_arrival_times tied_outputs).node k).arrival_time = 3 / 10 ∧
      (∀ j, j < k → (tied_outputs.node j).type = OUTPUT →
        ((compute_arrival_times tied_outputs).node j).arrival_time < 3 / 10) ∧
      ((compute_required_times (compute_arrival_times tied_outputs)).node k).required_time
        = 3 / 10 ∧
      ∀ j, j ≠ k → (tied_outputs.node j).type = OUTPUT →
        ((compute_required_times (compute_arrival_times tied_outputs)).node j).required_time =
          (tied_outputs.node j).required_time :=
  have hT : IsDeadline (compute_arrival_times tied_outputs) (3 / 10) := by
    unfold IsDeadline; with_unfolding_all decide
  ⟨hT, C2_sink_required_is_deadline tied_outputs (3 / 10) hT (by norm_num)⟩

/-- C4, as stated, fails: in the circuit with two tied OUTPUT nodes, OUT2 (index 3)
has arrival time equal to the deadline 0.3 and slack `DBL_MAX - 0.3`. -/
theorem C4_counterexample :
    Built tied_outputs ∧
      (∃ i, i < tied_outputs.node_count ∧ (tied_outputs.node i).type = OUTPUT) ∧
      ¬ (∀ T, IsDeadline (compute_arrival_times tied_outputs) T →
          ∀ i, i < tied_outputs.node_count → (tied_outputs.node i).type = OUTPUT →
            ((compute_arrival_times tied_outputs).node i).arrival_time = T →
            ((run_sta tied_outputs).node i).slack = 0) := by
  refine ⟨tied_outputs_built, ⟨2, by decide, by decide⟩, fun h => ?_⟩
  have hT : IsDeadline (compute_arrival_times tied_outputs) (3 / 10) := by
    unfold IsDeadline; with_unfolding_all decide
  have h3 := h (3 / 10) hT 3 (by decide) (by decide) (by with_unfolding_all decide)
  revert h3
  with_unfolding_all decide

/-- C4, amended: for every circuit whose largest OUTPUT arrival time `T` (the
deadline) is positive, after the three passes the lowest-indexed OUTPUT node with
arrival time `T` has slack exactly 0. -/
theorem C4_sink_slack_zero (c : Circuit) (T : ℚ)
    (hT : IsDeadline (compute_arrival_times c) T) (hpos : 0 < T) :
    ∃ k, k < c.node_count ∧ (c.node k).type = OUTPUT ∧
      ((compute_arrival_times c).node k).arrival_time = T ∧
      (∀ j, j < k → (c.node j).type = OUTPUT →
        ((compute_arrival_times c).node j).arrival_time < T) ∧
      ((run_sta c).node k).slack = 0 := by
  obtain ⟨k, hk, hko, hka, hfirst, hreq, -⟩ := sink_required c T hT hpos
  refine ⟨k, hk, hko, hka, hfirst, ?_⟩
  rw [run_sta_slack c k hk, hreq, hka, sub_self]

/-- C4 witness: the amended claim on the sample circuit, whose deadline is 0.8. -/
theorem C4_sink_slack_zero_witness :
    IsDeadline (compute_arrival_times sample_circuit) (8 / 10) ∧
    ∃ k, k < sample_circuit.node_count ∧ (sample_circuit.node k).type = OUTPUT ∧
      ((compute_arrival_times sample_circuit).node k).arrival_time = 8 / 10 ∧
      (∀ j, j < k → (sample_circuit.node j).type = OUTPUT →
        ((compute_arrival_times sample_circuit).node j).arrival_time < 8 / 10) ∧
      ((run_sta sample_circuit).node k).slack = 0 :=
  have hT : IsDeadline (compute_arrival_times sample_circuit) (8 / 10) := by
    unfold IsDeadline; with_unfolding_all decide
  ⟨hT, C4_sink_slack_zero sample_circuit (8 / 10) hT (by norm_num)⟩

/-! ## C5, C6, C7: the sample circuit of `main` -/

/-- C5, as stated, fails: the predecessors IN1 and IN2 of AND1 have delay 0, so AND1
(index 2) has arrival time 0, not 0.5. -/
theorem C5_counterexample :
    ¬ (((compute_arrival_times sample_circuit).node 0).arrival_time = 0 ∧
       ((compute_arrival_times sample_circuit).node 1).arrival_time = 0 ∧
       ((compute_arrival_times sample_circuit).node 2).arrival_time = 5 / 10 ∧
       ((compute_arrival_times sample_circuit).node 3).arrival_time = 1 ∧
       ((compute_arrival_times sample_circuit).node 4).arrival_time = 13 / 10) := by
  with_unfolding_all decide

/-- C5, amended: on the sample circuit `compute_arrival_times` yields arrival times
0 for IN1, IN2 and AND1 (indices 0, 1, 2), 0.5 for NOT1 (index 3) and 0.8 for OUT
(index 4). -/
theorem C5_sample_arrival_times :
    ((compute_arrival_times sample_circuit).node 0).arrival_time = 0 ∧
    ((compute_arrival_times sample_circuit).node 1).arrival_time = 0 ∧
    ((compute_arrival_times sample_circuit).node 2).arrival_time = 0 ∧
    ((compute_arrival_times sample_circuit).node 3).arrival_time = 5 / 10 ∧
    ((compute_arrival_times sample_circuit).node 4).arrival_time = 8 / 10 := by
  with_unfolding_all decide

/-- C6, as stated, fails: on the sample circuit neither the deadline nor the
required time of OUT (index 4) is 1.3. -/
theorem C6_counterexample :
    ¬ (IsDeadline (compute_arrival_times sample_circuit) (13 / 10) ∧
       ((compute_required_times (compute_arrival_times sample_circuit)).node 4).required_time
         = 13 / 10) := by
  unfold IsDeadline; with_unfolding_all decide

/-- C6, amended: on the sample circuit the deadline and the required time of OUT
(index 4) are both 0.8. -/
theorem C6_sample_deadline :
    IsDeadline (compute_arrival_times sample_circuit) (8 / 10) ∧
    ((compute_required_times (compute_arrival_times sample_circuit)).node 4).required_time
      = 8 / 10 := by
  unfold IsDeadline; with_unfolding_all decide

/-- C7: on the sample circuit, after the three passes, OUT (index 4) has slack 0. -/
theorem C7_sample_out_slack : ((run_sta sample_circuit).node 4).slack = 0 := by
  with_unfolding_all decide

/-! ## Bounds on a first analysis run -/

theorem DBL_MAX_gt : (10000 : ℚ) < DBL_MAX := by
  unfold DBL_MAX; norm_num

theorem Fresh.node {c : Circuit} (h : Fresh c) (i : Nat) :
    (c.node i).arrival_time = 0 ∧
      ((c.node i).required_time = DBL_MAX ∨ c.node_count ≤ i) := by
  by_cases hi : i < c.node_count
  · exact ⟨(h i hi).1, Or.inl (h i hi).2.1⟩
  · rw [Circuit.node_of_le _ _ (by omega)]
    exact ⟨rfl, Or.inr (by omega)⟩

/-- On a first run, arrival times grow by at most the largest gate delay per node. -/
theorem arrival_le_of_fresh (c : Circuit) (w : WellFormed c) (hf : Fresh c) (i : Nat) :
    ((compute_arrival_times c).node i).arrival_time ≤ 7 / 10 * ((i : ℚ) + 1) := by
  induction i using Nat.strong_induction_on with
  | _ i ih =>
    have hpos : (0 : ℚ) ≤ 7 / 10 * ((i : ℚ) + 1) := by positivity
    by_cases hi : i < c.node_count
    · rw [arrival_value c i hi]
      split
      · exact hpos
      · unfold max_input_arrival
        rcases foldl_max_attained
          (fun p => (((List.range i).foldl arrival_step c).node p).arrival_time +
            (((List.range i).foldl arrival_step c).node p).delay)
          (c.node i).inputs 0 with h0 | ⟨p, -, hp⟩
        · rw [h0]; exact hpos
        · rw [hp]
          have hd : (((List.range i).foldl arrival_step c).node p).delay ≤ 7 / 10 := by
            rw [((arrival_prefix_frame c i).arrival_timing.2 p).2.2.1]; exact w.delay_le p
          by_cases hpi : p < i
          · rw [arrival_prefix_node_lt c i p hpi (le_of_lt hi)] at hd ⊢
            have h1 := ih p hpi
            have h2 : (p : ℚ) + 1 ≤ (i : ℚ) := by exact_mod_cast hpi
            linarith
          · rw [arrival_prefix_node_ge c i p (by omega)] at hd ⊢
            rw [(hf.node p).1]
            have h2 : (0 : ℚ) ≤ (i : ℚ) := by positivity
            linarith
    · rw [Circuit.node_of_le _ _ (by rw [(compute_arrival_times_frame c).1]; omega)]
      exact hpos

theorem arrival_le_700 (c : Circuit) (w : WellFormed c) (hf : Fresh c) (i : Nat)
    (hi : i < c.node_count) :
    ((compute_arrival_times c).node i).arrival_time ≤ 700 := by
  have h1 := arrival_le_of_fresh c w hf i
  have h2 : (i : ℚ) + 1 ≤ 1000 := by
    have : i + 1 ≤ 1000 := by have := w.count_le; unfold MAX_NODES at this; omega
    exact_mod_cast this
  linarith

/-- The facts about the backward pass of a first run on a topologically created
circuit with a sink: the sink holds the deadline, the other OUTPUT nodes the
sentinel, and every other node the running minimum over its fan-out, started at the
sentinel. -/
theorem required_first_run (c : Circuit) (hb : Built c) (ht : Topological c) (k : Nat)
    (hk : (find_sink (compute_arrival_times c)).2 = some k) :
    ((compute_required_times (compute_arrival_times c)).node k).required_time =
        ((compute_arrival_times c).node k).arrival_time ∧
      (∀ j, j < c.node_count → j ≠ k → (c.node j).type = OUTPUT →
        ((compute_required_times (compute_arrival_times c)).node j).required_time = DBL_MAX) ∧
      ∀ v, v < c.node_count → (c.node v).type ≠ OUTPUT →
        ((compute_required_times (compute_arrival_times c)).node v).required_time =
          (c.node v).outputs.foldl
            (fun m s => min m
              (((compute_required_times (compute_arrival_times c)).node s).required_time -
                (c.node v).delay))
            DBL_MAX := by
  have hfa := compute_arrival_times_frame c
  have hty : ∀ j, ((compute_arrival_times c).node j).type = (c.node j).type :=
    fun j => (hfa.arrival_timing.2 j).2.1
  obtain ⟨hkn, hko, hka, -, -, -⟩ := find_sink_some _ k hk
  obtain ⟨hr1, hr2⟩ := required_of_sink _ k hk
  refine ⟨by rw [hr1, hka], ?_, ?_⟩
  · intro j hj hjk hjo
    rw [hr2 j hjk (by rw [hty]; exact hjo), hfa.arrival_keeps_required, (hb.fresh j hj).2.1]
  · intro v hv hvo
    have hvk : v ≠ k := fun h => hvo (by rw [← hty, h]; exact hko)
    have hfd := with_deadline_frame (compute_arrival_times c) k
      (find_sink (compute_arrival_times c)).1
    have hnode : ∀ j, ((with_deadline (compute_arrival_times c) k
        (find_sink (compute_arrival_times c)).1).node j).outputs = (c.node j).outputs ∧
        ((with_deadline (compute_arrival_times c) k
          (find_sink (compute_arrival_times c)).1).node j).delay = (c.node j).delay ∧
        ((with_deadline (compute_arrival_times c) k
          (find_sink (compute_arrival_times c)).1).node j).type = (c.node j).type := by
      intro j
      have h1 := hfd.required_timing.2 j
      have h2 := hfa.arrival_timing.2 j
      exact ⟨h1.2.2.2.2.trans h2.2.2.2.2, h1.2.2.1.trans h2.2.2.1, h1.2.1.trans h2.2.1⟩
    have hcount : (with_deadline (compute_arrival_times c) k
        (find_sink (compute_arrival_times c)).1).node_count = c.node_count := by
      rw [with_deadline_count, hfa.1]
    have htopo : Topological (with_deadline (compute_arrival_times c) k
        (find_sink (compute_arrival_times c)).1) := by
      intro u hu s hs
      rw [(hnode u).1] at hs
      rw [hcount] at hu
      exact ht u hu s hs
    have hval := backward_value _ htopo v (by rw [hcount]; exact hv)
      (by rw [(hnode v).2.2]; exact hvo)
    rw [compute_required_times_some _ k hk, ← with_deadline_count (compute_arrival_times c) k
      (find_sink (compute_arrival_times c)).1]
    rw [hval, (hnode v).1, (hnode v).2.1, with_deadline_node_of_ne _ k v _ hvk,
      hfa.arrival_keeps_required, (hb.fresh v hv).2.1]

/-! ## C3: required time as the minimum over the fan-out -/

theorem find_sink_of_positive (c : Circuit) (i : Nat) (hi : i < c.node_count)
    (hio : (c.node i).type = OUTPUT) (hpos : 0 < (c.node i).arrival_time) :
    ∃ k, (find_sink c).2 = some k := by
  rcases h : (find_sink c).2 with _ | k
  · exact absurd hpos (not_lt.mpr ((find_sink_none c h).2 i hi hio))
  · exact ⟨k, rfl⟩

/-- On a first run of a topologically created circuit with a sink, no node ends
above the sentinel. -/
theorem required_le_DBL_MAX (c : Circuit) (hb : Built c) (ht : Topological c) (k : Nat)
    (hk : (find_sink (compute_arrival_times c)).2 = some k) (s : Nat) :
    ((compute_required_times (compute_arrival_times c)).node s).required_time ≤ DBL_MAX := by
  have hgt := DBL_MAX_gt
  obtain ⟨h1, h2, h3⟩ := required_first_run c hb ht k hk
  have hcount : (compute_required_times (compute_arrival_times c)).node_count = c.node_count := by
    rw [(compute_required_times_frame _).1, (compute_arrival_times_frame c).1]
  by_cases hs : s < c.node_count
  · by_cases hso : (c.node s).type = OUTPUT
    · by_cases hsk : s = k
      · subst hsk
        rw [h1]
        have := arrival_le_700 c hb.wf hb.fresh s hs
        linarith
      · rw [h2 s hs hsk hso]
    · rw [h3 s hs hso]
      exact foldl_min_le_init _ _ _
  · rw [Circuit.node_of_le _ _ (by rw [hcount]; omega)]
    show (0 : ℚ) ≤ DBL_MAX
    linarith

/-- C3, as stated, fails: in the acyclic chain IN → AND1 → NOT1 → OUT whose nodes
were created sink first, on its first run, AND1 (index 2) is visited before its
successor NOT1 has been computed and ends with `DBL_MAX - 0.5`, while NOT1 ends with
required time 0. -/
theorem C3_counterexample :
    Built reversed_chain ∧ Acyclic reversed_chain ∧
      ¬ (∀ v, v < reversed_chain.node_count → (reversed_chain.node v).type ≠ OUTPUT →
          (reversed_chain.node v).outputs ≠ [] →
          RequiredIsMinAt (compute_required_times (compute_arrival_times reversed_chain)) v) := by
  refine ⟨reversed_chain_built, reversed_chain_acyclic, fun h => ?_⟩
  have h2 := h 2 (by decide) (by decide) (by decide)
  revert h2
  unfold RequiredIsMinAt
  with_unfolding_all decide

/-- C3, amended: for every circuit built with `create_node` and `add_connection`
whose node-creation order is topological and in which some OUTPUT node has a
positive arrival time (so that the backward pass runs), after `compute_arrival_times`
and `compute_required_times` every non-OUTPUT node with at least one fan-out
successor has `required_time` equal to the minimum over its successors `s` of
`s.required_time - delay(node)`. -/
theorem C3_required_is_min_when_topological (c : Circuit) (hb : Built c)
    (ht : Topological c)
    (hs : ∃ i, i < c.node_count ∧ (c.node i).type = OUTPUT ∧
      0 < ((compute_arrival_times c).node i).arrival_time)
    (v : Nat) (hv : v < c.node_count) (hvo : (c.node v).type ≠ OUTPUT)
    (hne : (c.node v).outputs ≠ []) :
    RequiredIsMinAt (compute_required_times (compute_arrival_times c)) v := by
  have hfa := compute_arrival_times_frame c
  have hfr := compute_required_times_frame (compute_arrival_times c)
  obtain ⟨i, hi, hio, hpos⟩ := hs
  obtain ⟨k, hk⟩ := find_sink_of_positive (compute_arrival_times c) i (by rw [hfa.1]; exact hi)
    (by rw [(hfa.arrival_timing.2 i).2.1]; exact hio) hpos
  obtain ⟨-, -, h3⟩ := required_first_run c hb ht k hk
  have hout : ((compute_required_times (compute_arrival_times c)).node v).outputs =
      (c.node v).outputs := (hfr.required_timing.2 v).2.2.2.2.trans (hfa.arrival_timing.2 v).2.2.2.2
  have hdel : ((compute_required_times (compute_arrival_times c)).node v).delay =
      (c.node v).delay := (hfr.required_timing.2 v).2.2.1.trans (hfa.arrival_timing.2 v).2.2.1
  unfold RequiredIsMinAt
  rw [hout, hdel]
  constructor
  · intro s hs
    rw [h3 v hv hvo]
    exact foldl_min_le_mem
      (fun s => ((compute_required_times (compute_arrival_times c)).node s).required_time -
        (c.node v).delay) _ _ s hs
  · rcases foldl_min_attained
      (fun s => ((compute_required_times (compute_arrival_times c)).node s).required_time -
        (c.node v).delay) (c.node v).outputs DBL_MAX with h0 | ⟨s, hs, h⟩
    · obtain ⟨s, hs⟩ := List.exists_mem_of_ne_nil _ hne
      refine ⟨s, hs, ?_⟩
      have hle := foldl_min_le_mem
        (fun s => ((compute_required_times (compute_arrival_times c)).node s).required_time -
          (c.node v).delay) (c.node v).outputs DBL_MAX s hs
      rw [h0] at hle
      have hup := required_le_DBL_MAX c hb ht k hk s
      have hd := hb.wf.delay_nonneg v
      rw [h3 v hv hvo, h0]
      simp only at hle
      linarith
    · exact ⟨s, hs, by rw [h3 v hv hvo]; exact h⟩

/-- C3 witness: the amended claim at NOT1 (index 3) of the sample circuit. -/
theorem C3_required_is_min_when_topological_witness :
    RequiredIsMinAt (compute_required_times (compute_arrival_times sample_circuit)) 3 :=
  C3_required_is_min_when_topological sample_circuit sample_built sample_topological
    ⟨4, by decide, by decide, by with_unfolding_all decide⟩ 3 (by decide) (by decide)
    (by decide)

/-! ## Paths -/

theorem isPathFromTo_single (c : Circuit) (v : Nat) (hv : v < c.node_count) :
    IsPathFromTo c v v [v] := by
  refine ⟨⟨List.chain'_singleton v, ?_⟩, rfl, rfl⟩
  intro x hx
  rw [List.mem_singleton.mp hx]; exact hv

theorem path_delay_single (c : Circuit) (v : Nat) : path_delay c [v] = 0 := by
  simp [path_delay]

theorem isPathFromTo_cons (c : Circuit) (v s b : Nat) (l : List Nat) (hv : v < c.node_count)
    (hs : s ∈ (c.node v).outputs) (h : IsPathFromTo c s b l) : IsPathFromTo c v b (v :: l) := by
  obtain ⟨⟨hch, hlt⟩, hhead, hlast⟩ := h
  cases l with
  | nil => simp at hhead
  | cons x xs =>
    simp only [List.head?_cons, Option.some.injEq] at hhead
    subst hhead
    refine ⟨⟨List.Chain'.cons hs hch, ?_⟩, rfl, ?_⟩
    · intro y hy
      rcases List.mem_cons.mp hy with h | h
      · rw [h]; exact hv
      · exact hlt y h
    · rw [List.getLast?_cons_cons]; exact hlast

theorem path_delay_cons (c : Circuit) (v x : Nat) (xs : List Nat) :
    path_delay c (v :: x :: xs) = (c.node v).delay + path_delay c (x :: xs) := by
  simp [path_delay, List.dropLast_cons₂]

theorem isPathFromTo_uncons (c : Circuit) (v b : Nat) (l : List Nat) (hvb : v ≠ b)
    (h : IsPathFromTo c v b l) :
    ∃ s l', l = v :: s :: l' ∧ s ∈ (c.node v).outputs ∧ IsPathFromTo c s b (s :: l') := by
  obtain ⟨⟨hch, hlt⟩, hhead, hlast⟩ := h
  cases l with
  | nil => simp at hhead
  | cons x xs =>
    simp only [List.head?_cons, Option.some.injEq] at hhead
    subst hhead
    cases xs with
    | nil =>
      simp only [List.getLast?_singleton, Option.some.injEq] at hlast
      exact absurd hlast hvb
    | cons s l' =>
      rw [List.chain'_cons] at hch
      refine ⟨s, l', rfl, hch.1, ⟨hch.2, fun y hy => hlt y (List.mem_cons_of_mem _ hy)⟩, rfl, ?_⟩
      rw [List.getLast?_cons_cons] at hlast; exact hlast

theorem path_delay_nonneg (c : Circuit) (hd : ∀ i, 0 ≤ (c.node i).delay) (l : List Nat) :
    0 ≤ path_delay c l := by
  unfold path_delay
  apply List.sum_nonneg
  intro x hx
  obtain ⟨i, -, rfl⟩ := List.mem_map.mp hx
  exact hd i

theorem isPathFromTo_snoc (c : Circuit) (a p v : Nat) (l : List Nat) (hv : v < c.node_count)
    (hp : v ∈ (c.node p).outputs) (h : IsPathFromTo c a p l) :
    IsPathFromTo c a v (l ++ [v]) := by
  obtain ⟨⟨hch, hlt⟩, hhead, hlast⟩ := h
  refine ⟨⟨?_, ?_⟩, ?_, ?_⟩
  · apply List.Chain'.append hch (List.chain'_singleton v)
    intro x hx y hy
    rw [hlast] at hx
    simp only [List.head?_cons, Option.mem_def, Option.some.injEq] at hx hy
    subst hx; subst hy
    exact hp
  · intro x hx
    rcases List.mem_append.mp hx with h | h
    · exact hlt x h
    · rw [List.mem_singleton.mp h]; exact hv
  · cases l with
    | nil => simp at hhead
    | cons x xs => simpa using hhead
  · simp

theorem path_delay_snoc (c : Circuit) (p v : Nat) (l : List Nat)
    (hlast : l.getLast? = some p) :
    path_delay c (l ++ [v]) = path_delay c l + (c.node p).delay := by
  have hl : l = l.dropLast ++ [p] := by
    have hne : l ≠ [] := by
      intro h; rw [h] at hlast; simp at hlast
    have := List.dropLast_append_getLast hne
    rw [List.getLast?_eq_getLast _ hne] at hlast
    simp only [Option.some.injEq] at hlast
    rw [hlast] at this
    exact this.symm
  unfold path_delay
  rw [List.dropLast_concat]
  conv_lhs => rw [hl]
  simp

/-! ## C8: arrival time as the longest path from a primary input -/

theorem isPathFromTo_unsnoc (c : Circuit) (a v x : Nat) (l : List Nat) (hl : l ≠ [])
    (h : IsPathFromTo c a v (l ++ [x])) :
    x = v ∧ ∃ p, l.getLast? = some p ∧ v ∈ (c.node p).outputs ∧ IsPathFromTo c a p l := by
  obtain ⟨⟨hch, hlt⟩, hhead, hlast⟩ := h
  have hxv : x = v := by simpa using hlast
  subst hxv
  refine ⟨rfl, l.getLast hl, List.getLast?_eq_getLast _ hl, ?_, ⟨?_, ?_⟩, ?_, ?_⟩
  · rw [List.chain'_append] at hch
    exact hch.2.2 _ (by rw [List.getLast?_eq_getLast _ hl]; rfl) _ (by simp)
  · rw [List.chain'_append] at hch; exact hch.1
  · intro y hy; exact hlt y (List.mem_append_left _ hy)
  · cases l with
    | nil => exact absurd rfl hl
    | cons y ys => simpa using hhead
  · exact List.getLast?_eq_getLast _ hl

theorem arrival_at_input (c : Circuit) (ho : FaninOrdered c) (v : Nat) (hv : v < c.node_count)
    (hty : (c.node v).type = INPUT) :
    ((compute_arrival_times c).node v).arrival_time = 0 := by
  rw [arrival_value_ordered c ho v hv,
    if_pos (by rw [((compute_arrival_times_frame c).arrival_timing.2 v).2.1]; exact hty)]

theorem arrival_at_gate (c : Circuit) (w : WellFormed c) (ht : Topological c) (v : Nat)
    (hv : v < c.node_count) (hty : (c.node v).type ≠ INPUT) (hne : (c.node v).inputs ≠ []) :
    (∀ p ∈ (c.node v).inputs,
      ((compute_arrival_times c).node p).arrival_time + (c.node p).delay ≤
        ((compute_arrival_times c).node v).arrival_time) ∧
    ∃ p ∈ (c.node v).inputs,
      ((compute_arrival_times c).node v).arrival_time =
        ((compute_arrival_times c).node p).arrival_time + (c.node p).delay := by
  have hf := (compute_arrival_times_frame c).arrival_timing
  have h := arrival_is_max_of_ordered c (w.faninOrdered ht) w.delay_nonneg v hv
    (by rw [(hf.2 v).2.1]; exact hty) (by rw [(hf.2 v).2.2.2.1]; exact hne)
  unfold ArrivalIsMaxAt at h
  rw [(hf.2 v).2.2.2.1] at h
  obtain ⟨h1, p, hp, h2⟩ := h
  refine ⟨fun q hq => ?_, p, hp, ?_⟩
  · have := h1 q hq
    rw [(hf.2 q).2.2.1] at this
    exact this
  · rw [(hf.2 p).2.2.1] at h2
    exact h2

theorem path_delay_le_arrival (c : Circuit) (w : WellFormed c) (ht : Topological c)
    (hin : ∀ v, v < c.node_count → ((c.node v).inputs = [] ↔ (c.node v).type = INPUT))
    (a : Nat) (ha : (c.node a).type = INPUT) (l : List Nat) :
    ∀ v, IsPathFromTo c a v l →
      path_delay c l ≤ ((compute_arrival_times c).node v).arrival_time := by
  induction l using List.reverseRecOn with
  | nil =>
    intro v h
    have := h.2.1
    simp at this
  | append_singleton l x ih =>
    intro v h
    by_cases hl : l = []
    · subst hl
      obtain ⟨⟨-, hlt⟩, hhead, hlast⟩ := h
      have hxa : x = a := by simpa using hhead
      have hxv : x = v := by simpa using hlast
      subst hxa; subst hxv
      rw [List.nil_append, path_delay_single,
        arrival_at_input c (w.faninOrdered ht) x (hlt x (by simp)) ha]
    · obtain ⟨hxv, p, hlast, hedge, hpath⟩ := isPathFromTo_unsnoc c a v x l hl h
      subst hxv
      have hvn : x < c.node_count := h.1.2 x (by simp)
      have hpin : p ∈ (c.node x).inputs := (w.edge_iff p x).mp hedge
      have hne : (c.node x).inputs ≠ [] := List.ne_nil_of_mem hpin
      have hty : (c.node x).type ≠ INPUT := fun h => hne ((hin x hvn).mpr h)
      have h1 := (arrival_at_gate c w ht x hvn hty hne).1 p hpin
      have h2 := ih p hpath
      rw [path_delay_snoc c p x l hlast]
      linarith

theorem path_attains_arrival (c : Circuit) (w : WellFormed c) (ht : Topological c)
    (hin : ∀ v, v < c.node_count → ((c.node v).inputs = [] ↔ (c.node v).type = INPUT))
    (v : Nat) (hv : v < c.node_count) :
    ∃ a l, IsPathFromTo c a v l ∧ (c.node a).type = INPUT ∧
      path_delay c l = ((compute_arrival_times c).node v).arrival_time := by
  induction v using Nat.strong_induction_on with
  | _ v ih =>
    by_cases hty : (c.node v).type = INPUT
    · refine ⟨v, [v], isPathFromTo_single c v hv, hty, ?_⟩
      rw [path_delay_single, arrival_at_input c (w.faninOrdered ht) v hv hty]
    · have hne : (c.node v).inputs ≠ [] := fun h => hty ((hin v hv).mp h)
      obtain ⟨p, hp, heq⟩ := (arrival_at_gate c w ht v hv hty hne).2
      have hpv : p < v := w.faninOrdered ht v p hp
      obtain ⟨a, l, hpath, ha, hd⟩ := ih p hpv (by omega)
      refine ⟨a, l ++ [v], isPathFromTo_snoc c a p v l hv ((w.edge_iff p v).mpr hp) hpath, ha, ?_⟩
      rw [path_delay_snoc c p v l hpath.2.2, hd, heq]

theorem sample_reachable : Reachable sample_circuit := sample_built.reachable

/-- C8: for every reachable circuit whose node-creation order is topological and
whose nodes without fan-in are exactly the INPUT nodes, after
`compute_arrival_times` the arrival time of each node is the maximum, over all paths
from an INPUT node to it, of the summed delays of the path's nodes other than the
node itself: no such path exceeds it and one such path attains it. -/
theorem C8_arrival_is_longest_path (c : Circuit) (hr : Reachable c) (ht : Topological c)
    (hin : ∀ v, v < c.node_count → ((c.node v).inputs = [] ↔ (c.node v).type = INPUT))
    (v : Nat) (hv : v < c.node_count) :
    (∀ a l, IsPathFromTo c a v l → (c.node a).type = INPUT →
      path_delay c l ≤ ((compute_arrival_times c).node v).arrival_time) ∧
    ∃ a l, IsPathFromTo c a v l ∧ (c.node a).type = INPUT ∧
      path_delay c l = ((compute_arrival_times c).node v).arrival_time :=
  ⟨fun a l hp ha => path_delay_le_arrival c hr.wellFormed ht hin a ha l v hp,
    path_attains_arrival c hr.wellFormed ht hin v hv⟩

/-- C8 witness: the claim at OUT (index 4) of the sample circuit. -/
theorem C8_arrival_is_longest_path_witness :
    (∀ a l, IsPathFromTo sample_circuit a 4 l → (sample_circuit.node a).type = INPUT →
      path_delay sample_circuit l ≤
        ((compute_arrival_times sample_circuit).node 4).arrival_time) ∧
    ∃ a l, IsPathFromTo sample_circuit a 4 l ∧ (sample_circuit.node a).type = INPUT ∧
      path_delay sample_circuit l =
        ((compute_arrival_times sample_circuit).node 4).arrival_time :=
  C8_arrival_is_longest_path sample_circuit sample_reachable sample_topological
    (by decide) 4 (by decide)

/-! ## Required time and the longest path to the sink, in exact arithmetic -/

theorem path_delay_cons_of_ne_nil (c : Circuit) (v : Nat) (l : List Nat) (hl : l ≠ []) :
    path_delay c (v :: l) = (c.node v).delay + path_delay c l := by
  cases l with
  | nil => exact absurd rfl hl
  | cons x xs => exact path_delay_cons c v x xs

theorem isPathFromTo_ne_nil (c : Circuit) (a b : Nat) (l : List Nat)
    (h : IsPathFromTo c a b l) : l ≠ [] := by
  intro hl
  have := h.2.1
  rw [hl] at this
  simp at this

theorem path_from_sink (c : Circuit) (o : Nat) (hout : (c.node o).outputs = [])
    (l : List Nat) (h : IsPathFromTo c o o l) : l = [o] := by
  obtain ⟨⟨hch, -⟩, hhead, -⟩ := h
  cases l with
  | nil => simp at hhead
  | cons x xs =>
    simp only [List.head?_cons, Option.some.injEq] at hhead
    subst hhead
    cases xs with
    | nil => rfl
    | cons y ys =>
      rw [List.chain'_cons] at hch
      have := hch.1
      rw [hout] at this
      simp at this

/-- The invariant of the backward pass on a first run with a single sink `o`: a node
with a path to the sink holds the deadline minus its longest path delay, and a node
without one stays within the summed delays of the sentinel. -/
theorem required_path_facts (c : Circuit) (hb : Built c) (ht : Topological c) (o : Nat)
    (ho : o < c.node_count) (huniq : ∀ j, j < c.node_count → (c.node j).type = OUTPUT → j = o)
    (hout : (c.node o).outputs = [])
    (hk : (find_sink (compute_arrival_times c)).2 = some o) :
    ∀ m v, v < c.node_count → c.node_count - v = m →
      (∀ l, IsPathFromTo c v o l →
        ((compute_required_times (compute_arrival_times c)).node v).required_time ≤
          ((compute_arrival_times c).node o).arrival_time - path_delay c l) ∧
      ((∃ l, IsPathFromTo c v o l ∧
          ((compute_required_times (compute_arrival_times c)).node v).required_time =
            ((compute_arrival_times c).node o).arrival_time - path_delay c l) ∨
        ((¬ ∃ l, IsPathFromTo c v o l) ∧
          DBL_MAX - 7 / 10 * ((c.node_count : ℚ) - (v : ℚ)) ≤
            ((compute_required_times (compute_arrival_times c)).node v).required_time)) := by
  have w := hb.wf
  have hgt := DBL_MAX_gt
  have hT := arrival_le_700 c w hb.fresh o ho
  have hn : (c.node_count : ℚ) ≤ 1000 := by
    have := w.count_le
    unfold MAX_NODES at this
    exact_mod_cast this
  obtain ⟨hr1, -, hr3⟩ := required_first_run c hb ht o hk
  intro m
  induction m using Nat.strong_induction_on with
  | _ m ih =>
    intro v hv hm
    by_cases hvo : v = o
    · subst hvo
      constructor
      · intro l hl
        rw [path_from_sink c v hout l hl, path_delay_single, hr1, sub_zero]
      · left
        exact ⟨[v], isPathFromTo_single c v hv, by rw [path_delay_single, hr1, sub_zero]⟩
    · have hty : (c.node v).type ≠ OUTPUT := fun h => hvo (huniq v hv h)
      have hval := hr3 v hv hty
      have hdv := w.delay_nonneg v
      have hdv' := w.delay_le v
      have hsucc : ∀ s ∈ (c.node v).outputs, v < s ∧ s < c.node_count :=
        fun s hs => ⟨ht v hv s hs, w.outputs_lt v s hs⟩
      have hQ := fun s (hs : s ∈ (c.node v).outputs) =>
        ih (c.node_count - s) (by have := hsucc s hs; omega) s (hsucc s hs).2 rfl
      have hle := fun s (hs : s ∈ (c.node v).outputs) =>
        foldl_min_le_mem
          (fun s => ((compute_required_times (compute_arrival_times c)).node s).required_time -
            (c.node v).delay) (c.node v).outputs DBL_MAX s hs
      have hvq : (v : ℚ) + 1 ≤ (c.node_count : ℚ) := by exact_mod_cast hv
      constructor
      · intro l hl
        obtain ⟨s, l', rfl, hs, hpath⟩ := isPathFromTo_uncons c v o l hvo hl
        have h1 := (hQ s hs).1 _ hpath
        have h2 := hle s hs
        rw [← hval] at h2
        rw [path_delay_cons]
        linarith
      · by_cases hex : ∃ s ∈ (c.node v).outputs, ∃ l, IsPathFromTo c s o l
        · left
          obtain ⟨s0, hs0, l0, hl0⟩ := hex
          have hup : ((compute_required_times (compute_arrival_times c)).node v).required_time
              ≤ 700 := by
            have h1 := (hQ s0 hs0).1 l0 hl0
            have h2 := hle s0 hs0
            rw [← hval] at h2
            have h3 := path_delay_nonneg c w.delay_nonneg l0
            linarith
          rcases foldl_min_attained
            (fun s => ((compute_required_times (compute_arrival_times c)).node s).required_time -
              (c.node v).delay) (c.node v).outputs DBL_MAX with h0 | ⟨s, hs, h⟩
          · rw [← hval] at h0
            rw [h0] at hup
            linarith
          · rw [← hval] at h
            rcases (hQ s hs).2 with ⟨l, hl, heq⟩ | ⟨-, hbig⟩
            · refine ⟨v :: l, isPathFromTo_cons c v s o l hv hs hl, ?_⟩
              rw [path_delay_cons_of_ne_nil c v l (isPathFromTo_ne_nil c s o l hl), h, heq]
              ring
            · have hsq : (0 : ℚ) ≤ (s : ℚ) := by positivity
              rw [h] at hup
              linarith
        · right
          constructor
          · rintro ⟨l, hl⟩
            obtain ⟨s, l', -, hs, hpath⟩ := isPathFromTo_uncons c v o l hvo hl
            exact hex ⟨s, hs, _, hpath⟩
          · rcases foldl_min_attained
              (fun s => ((compute_required_times (compute_arrival_times c)).node s).required_time -
                (c.node v).delay) (c.node v).outputs DBL_MAX with h0 | ⟨s, hs, h⟩
            · rw [← hval] at h0
              rw [h0]
              linarith
            · rw [← hval] at h
              rcases (hQ s hs).2 with ⟨l, hl, -⟩ | ⟨-, hbig⟩
              · exact absurd ⟨s, hs, l, hl⟩ hex
              · have hsv : (v : ℚ) + 1 ≤ (s : ℚ) := by exact_mod_cast (hsucc s hs).1
                rw [h]
                linarith

theorem single_output_is_sink (c : Circuit) (o : Nat) (ho : o < c.node_count)
    (hoty : (c.node o).type = OUTPUT)
    (huniq : ∀ j, j < c.node_count → (c.node j).type = OUTPUT → j = o)
    (hpos : 0 < ((compute_arrival_times c).node o).arrival_time) :
    (find_sink (compute_arrival_times c)).2 = some o := by
  have hfa := compute_arrival_times_frame c
  obtain ⟨k, hk⟩ := find_sink_of_positive (compute_arrival_times c) o (by rw [hfa.1]; exact ho)
    (by rw [(hfa.arrival_timing.2 o).2.1]; exact hoty) hpos
  obtain ⟨hkn, hko, -⟩ := find_sink_some _ k hk
  rw [hfa.1] at hkn
  rw [(hfa.arrival_timing.2 k).2.1] at hko
  rw [hk, huniq k hkn hko]

theorem sample_path : IsPathFromTo sample_circuit 0 4 [0, 2, 3, 4] := by
  refine ⟨⟨?_, by decide⟩, by decide, by decide⟩
  simp only [List.chain'_cons, List.chain'_singleton, and_true]
  decide

/-- In exact arithmetic, for every freshly built circuit whose node-creation order is
topological and which has exactly one OUTPUT node `o`, without fan-out and with
positive arrival time `T`, after `compute_arrival_times` and
`compute_required_times` every node `v` with a path to `o` has `required_time` equal
to `T` minus the maximum, over all paths from `v` to `o`, of the summed delays of
the path's nodes other than `o`. The statement concerns the rational model only:
with rounded `double` arithmetic the successive subtractions `(T - d1) - d2` of the
program need not equal `T - (d1 + d2)`. -/
theorem required_is_deadline_minus_longest_path_exact (c : Circuit) (hb : Built c)
    (ht : Topological c) (o : Nat) (ho : o < c.node_count) (hoty : (c.node o).type = OUTPUT)
    (huniq : ∀ j, j < c.node_count → (c.node j).type = OUTPUT → j = o)
    (hout : (c.node o).outputs = [])
    (hpos : 0 < ((compute_arrival_times c).node o).arrival_time)
    (v : Nat) (hv : v < c.node_count)
    (hreach : ∃ l, IsPathFromTo c v o l) :
    (∀ l, IsPathFromTo c v o l →
      ((compute_required_times (compute_arrival_times c)).node v).required_time ≤
        ((compute_arrival_times c).node o).arrival_time - path_delay c l) ∧
    ∃ l, IsPathFromTo c v o l ∧
      ((compute_required_times (compute_arrival_times c)).node v).required_time =
        ((compute_arrival_times c).node o).arrival_time - path_delay c l := by
  have hk := single_output_is_sink c o ho hoty huniq hpos
  obtain ⟨h1, h2⟩ := required_path_facts c hb ht o ho huniq hout hk _ v hv rfl
  refine ⟨h1, ?_⟩
  rcases h2 with h | ⟨hno, -⟩
  · exact h
  · exact absurd hreach hno

/-- The exact closed form at IN1 (index 0) of the sample circuit, whose only OUTPUT
node is OUT (index 4), reached along IN1 → AND1 → NOT1 → OUT. -/
theorem required_is_deadline_minus_longest_path_exact_at_sample :
    (∀ l, IsPathFromTo sample_circuit 0 4 l →
      ((compute_required_times (compute_arrival_times sample_circuit)).node 0).required_time ≤
        ((compute_arrival_times sample_circuit).node 4).arrival_time -
          path_delay sample_circuit l) ∧
    ∃ l, IsPathFromTo sample_circuit 0 4 l ∧
      ((compute_required_times (compute_arrival_times sample_circuit)).node 0).required_time =
        ((compute_arrival_times sample_circuit).node 4).arrival_time -
          path_delay sample_circuit l :=
  required_is_deadline_minus_longest_path_exact sample_circuit sample_built sample_topological
    4 (by decide) (by decide) (by decide) (by decide) (by with_unfolding_all decide)
    0 (by decide) ⟨[0, 2, 3, 4], sample_path⟩

/-! ## C10: a second analysis run -/

theorem foldl_min_eq_init (g : Nat → ℚ) (l : List Nat) (a : ℚ) (h : ∀ s ∈ l, a ≤ g s) :
    l.foldl (fun m s => min m (g s)) a = a := by
  induction l with
  | nil => rfl
  | cons x xs ih =>
    rw [List.foldl_cons, min_eq_left (h x (List.mem_cons_self _ _))]
    exact ih (fun s hs => h s (List.mem_cons_of_mem _ hs))

theorem Topological.topological_of_timing {c c' : Circuit} (h : SameButTiming c c') (ht : Topological c) :
    Topological c' := by
  intro u hu s hs
  rw [(h.2 u).2.2.2.2] at hs
  rw [h.1] at hu
  exact ht u hu s hs

theorem FaninOrdered.faninOrdered_of_timing {c c' : Circuit} (h : SameButTiming c c')
    (ho : FaninOrdered c) : FaninOrdered c' := by
  intro v p hp
  rw [(h.2 v).2.2.2.1] at hp
  exact ho v p hp

theorem run_sta_timing (c : Circuit) : SameButTiming c (run_sta c) :=
  ((compute_arrival_times_frame c).arrival_timing.timing_trans
    (compute_required_times_frame _).required_timing).timing_trans
      (compute_slack_frame _).slack_timing

/-- In a circuit whose fan-in entries all precede their node, the forward pass does
not depend on the timing fields it finds. -/
theorem arrival_congr (c c' : Circuit) (h : SameButTiming c c') (ho : FaninOrdered c)
    (i : Nat) :
    ((compute_arrival_times c').node i).arrival_time =
      ((compute_arrival_times c).node i).arrival_time := by
  have hf := (compute_arrival_times_frame c).arrival_timing
  have hf' := (compute_arrival_times_frame c').arrival_timing
  induction i using Nat.strong_induction_on with
  | _ i ih =>
    by_cases hi : i < c.node_count
    · rw [arrival_value_ordered c ho i hi,
        arrival_value_ordered c' (FaninOrdered.faninOrdered_of_timing h ho) i (by rw [h.1]; exact hi),
        (hf'.2 i).2.1, (hf.2 i).2.1, (h.2 i).2.1, (hf'.2 i).2.2.2.1, (hf.2 i).2.2.2.1,
        (h.2 i).2.2.2.1]
      split
      · rfl
      · unfold max_input_arrival
        apply foldl_max_congr
        intro p hp
        rw [ih p (ho i p hp), (hf'.2 p).2.2.1, (hf.2 p).2.2.1, (h.2 p).2.2.1]
    · have h1 : (compute_arrival_times c').node i = default :=
        Circuit.node_of_le _ _ (by rw [hf'.1, h.1]; omega)
      have h2 : (compute_arrival_times c).node i = default :=
        Circuit.node_of_le _ _ (by rw [hf.1]; omega)
      rw [h1, h2]

theorem compute_arrival_times_fixed (c : Circuit)
    (h : ∀ i, ((compute_arrival_times c).node i).arrival_time = (c.node i).arrival_time) :
    compute_arrival_times c = c := by
  have hf := compute_arrival_times_frame c
  apply Circuit.ext_node _ _ hf.1
  intro j _
  rw [hf.2 j, h j]

theorem with_deadline_same (c : Circuit) (k : Nat) (T : ℚ)
    (h : (c.node k).required_time = T) : with_deadline c k T = c := by
  have hf := with_deadline_frame c k T
  apply Circuit.ext_node _ _ hf.1
  intro j hj
  by_cases hjk : j = k
  · subst hjk
    rw [hf.2 j, with_deadline_node_self c j T hj, ← h]
  · exact with_deadline_node_of_ne c k j T hjk

/-- The backward loop changes nothing when every non-OUTPUT node already lies below
what its fan-out allows. -/
theorem backward_fixed (c : Circuit) (ht : Topological c)
    (hst : ∀ i, i < c.node_count → (c.node i).type ≠ OUTPUT → ∀ s ∈ (c.node i).outputs,
      (c.node i).required_time ≤ (c.node s).required_time - (c.node i).delay) :
    down_from required_step c c.node_count 0 = c := by
  have hf := down_from_required_frame c c.node_count 0
  have key : ∀ m i, c.node_count - i = m →
      ((down_from required_step c c.node_count 0).node i).required_time =
        (c.node i).required_time := by
    intro m
    induction m using Nat.strong_induction_on with
    | _ m ih =>
      intro i hm
      by_cases hi : i < c.node_count
      · by_cases hty : (c.node i).type = OUTPUT
        · rw [backward_output c i hty]
        · rw [backward_value c ht i hi hty]
          have hcongr := foldl_min_congr
            (fun s => ((down_from required_step c c.node_count 0).node s).required_time -
              (c.node i).delay)
            (fun s => (c.node s).required_time - (c.node i).delay)
            (c.node i).outputs (c.node i).required_time
            (fun s hs => by
              have his := ht i hi s hs
              simp only
              rw [ih (c.node_count - s) (by omega) s rfl])
          rw [hcongr]
          exact foldl_min_eq_init _ _ _ (hst i hi hty)
      · have h1 : (down_from required_step c c.node_count 0).node i = default :=
          Circuit.node_of_le _ _ (by rw [hf.1]; omega)
        rw [h1, Circuit.node_of_le _ _ (by omega)]
  apply Circuit.ext_node _ _ hf.1
  intro j _
  rw [hf.2 j, key _ j rfl]

/-- After the backward pass of a topologically created circuit with a sink, every
non-OUTPUT node lies below what its fan-out allows. -/
theorem required_stable (c : Circuit) (ht : Topological c) (k : Nat)
    (hk : (find_sink c).2 = some k) (i : Nat) (hi : i < c.node_count)
    (hty : (c.node i).type ≠ OUTPUT) (s : Nat) (hs : s ∈ (c.node i).outputs) :
    ((compute_required_times c).node i).required_time ≤
      ((compute_required_times c).node s).required_time - (c.node i).delay := by
  have hfd := with_deadline_frame c k (find_sink c).1
  have htd : Topological (with_deadline c k (find_sink c).1) :=
    Topological.topological_of_timing hfd.required_timing ht
  have hnode := hfd.required_timing.2 i
  rw [compute_required_times_some c k hk, ← with_deadline_count c k (find_sink c).1,
    backward_value _ htd i (by rw [with_deadline_count]; exact hi) (by rw [hnode.2.1]; exact hty),
    hnode.2.2.2.2, hnode.2.2.1]
  exact foldl_min_le_mem
    (fun s => ((down_from required_step (with_deadline c k (find_sink c).1)
      (with_deadline c k (find_sink c).1).node_count 0).node s).required_time -
        (c.node i).delay) _ _ s hs

theorem compute_slack_fixed (c : Circuit)
    (h : ∀ i, i < c.node_count →
      (c.node i).slack = (c.node i).required_time - (c.node i).arrival_time) :
    compute_slack c = c := by
  have hf := compute_slack_frame c
  apply Circuit.ext_node _ _ hf.1
  intro j hj
  rw [hf.2 j, slack_value c j hj, ← h j hj]

/-- The backward pass changes nothing when run again on its own result, whatever the
slack fields hold. -/
theorem compute_required_times_fixed (c1 c3 : Circuit) (ht : Topological c1)
    (h3 : SameButSlack (compute_required_times c1) c3) :
    compute_required_times c3 = c3 := by
  have hfr := compute_required_times_frame c1
  have hnode : ∀ j, (c3.node j).type = (c1.node j).type ∧
      (c3.node j).arrival_time = (c1.node j).arrival_time ∧
      (c3.node j).required_time = ((compute_required_times c1).node j).required_time ∧
      (c3.node j).delay = (c1.node j).delay ∧ (c3.node j).outputs = (c1.node j).outputs := by
    intro j
    have a := h3.slack_timing.2 j
    have b := hfr.required_timing.2 j
    exact ⟨a.2.1.trans b.2.1, (h3.slack_keeps_arrival j).trans (hfr.required_keeps_arrival j),
      h3.slack_keeps_required j, a.2.2.1.trans b.2.2.1, a.2.2.2.2.trans b.2.2.2.2⟩
  have hcount : c3.node_count = c1.node_count := h3.1.trans hfr.1
  have hsink : find_sink c3 = find_sink c1 :=
    find_sink_congr c1 c3 hcount (fun i => ⟨(hnode i).1, (hnode i).2.1⟩)
  have ht3 : Topological c3 :=
    Topological.topological_of_timing (hfr.required_timing.timing_trans h3.slack_timing) ht
  rcases hk : (find_sink c1).2 with _ | k
  · exact compute_required_times_none c3 (by rw [hsink]; exact hk)
  · rw [compute_required_times_some c3 k (by rw [hsink]; exact hk),
      with_deadline_same c3 k _ (by
        rw [(hnode k).2.2.1, hsink]; exact (required_of_sink c1 k hk).1)]
    apply backward_fixed c3 ht3
    intro i hi hty s hs
    rw [(hnode i).2.2.1, (hnode s).2.2.1, (hnode i).2.2.2.1]
    rw [(hnode i).2.2.2.2] at hs
    exact required_stable c1 ht k hk i (by rw [← hcount]; exact hi)
      (by rw [← (hnode i).1]; exact hty) s hs

/-- C10, as stated, fails: in the chain IN → AND1 → NOT1 → OUT whose nodes were
created sink first, the first run leaves OUT (index 0) with arrival time 0.3, read
from the not yet computed NOT1, and the second run raises it to 0.8. -/
theorem C10_counterexample :
    Built reversed_chain ∧
      ¬ (∀ i, i < reversed_chain.node_count →
          ((run_sta (run_sta reversed_chain)).node i).arrival_time =
            ((run_sta reversed_chain).node i).arrival_time ∧
          ((run_sta (run_sta reversed_chain)).node i).required_time =
            ((run_sta reversed_chain).node i).required_time ∧
          ((run_sta (run_sta reversed_chain)).node i).slack =
            ((run_sta reversed_chain).node i).slack) := by
  refine ⟨reversed_chain_built, ?_⟩
  with_unfolding_all decide

/-- C10, amended: for every reachable circuit whose node-creation order is
topological, running the three passes a second time on the unmodified circuit leaves
every node, and so every `arrival_time`, `required_time` and `slack`, as the first
run left it. -/
theorem C10_second_run_when_topological (c : Circuit) (hr : Reachable c)
    (ht : Topological c) : run_sta (run_sta c) = run_sta c := by
  have w := hr.wellFormed
  have ho := w.faninOrdered ht
  have hfa := compute_arrival_times_frame c
  have hfr := compute_required_times_frame (compute_arrival_times c)
  have hfs := compute_slack_frame (compute_required_times (compute_arrival_times c))
  have ht1 : Topological (compute_arrival_times c) :=
    Topological.topological_of_timing hfa.arrival_timing ht
  have harr : compute_arrival_times (run_sta c) = run_sta c := by
    apply compute_arrival_times_fixed
    intro i
    rw [arrival_congr c (run_sta c) (run_sta_timing c) ho i]
    unfold run_sta
    rw [hfs.slack_keeps_arrival, hfr.required_keeps_arrival]
  have hreq : compute_required_times (run_sta c) = run_sta c :=
    compute_required_times_fixed (compute_arrival_times c) (run_sta c) ht1 hfs
  have hsl : compute_slack (run_sta c) = run_sta c := by
    apply compute_slack_fixed
    intro i hi
    have hi' : i < (compute_required_times (compute_arrival_times c)).node_count := by
      rw [← hfs.1]; exact hi
    unfold run_sta
    rw [slack_value _ i hi', hfs.slack_keeps_required, hfs.slack_keeps_arrival]
  have : run_sta (run_sta c) =
      compute_slack (compute_required_times (compute_arrival_times (run_sta c))) := rfl
  rw [this, harr, hreq, hsl]

/-- C10 witness: the amended claim on the sample circuit. -/
theorem C10_second_run_when_topological_witness :
    run_sta (run_sta sample_circuit) = run_sta sample_circuit :=
  C10_second_run_when_topological sample_circuit sample_reachable sample_topological

/-! ## C15, C16: what `create_node` refuses -/

theorem one_named_a_built : Built one_named_a :=
  Built.node _ "A" INPUT Built.create

/-- C15, as stated, fails: `create_node` never compares names; on the circuit whose
only node is named "A", a second call with the name "A" returns a new node at
index 1 and `node_count` becomes 2. -/
theorem C15_counterexample :
    Built one_named_a ∧ (one_named_a.node 0).name = "A" ∧
      ¬ ((create_node one_named_a "A" INPUT).2 = none ∧
          (create_node one_named_a "A" INPUT).1 = one_named_a) := by
  refine ⟨one_named_a_built, by decide, ?_⟩
  decide

/-- C15, amended: `create_node` called with a name equal to the stored name of a
node already in the circuit is not refused: whenever the circuit holds fewer than
`MAX_NODES` nodes it returns a new node at index `node_count` carrying that same
name, increases `node_count` by one and leaves every existing node as before. -/
theorem C15_duplicate_name_accepted (c : Circuit) (name : String) (type : GateType)
    (i : Nat) (hi : i < c.node_count) (hname : (c.node i).name = (new_node name type).name)
    (hroom : c.node_count < MAX_NODES) :
    (create_node c name type).2 = some c.node_count ∧
      (create_node c name type).1.node_count = c.node_count + 1 ∧
      ((create_node c name type).1.node c.node_count).name =
        ((create_node c name type).1.node i).name ∧
      ∀ j, j < c.node_count → (create_node c name type).1.node j = c.node j := by
  refine ⟨?_, create_node_count c name type hroom, ?_,
    fun j hj => create_node_node_lt c name type j hj⟩
  · have h' : ¬ (c.node_count ≥ MAX_NODES) := by omega
    rw [create_node, if_neg h']
  · rw [create_node_node_new c name type hroom, create_node_node_lt c name type i hi, hname]

/-- C15 witness: a second node named "A" is accepted. -/
theorem C15_duplicate_name_accepted_witness :
    (create_node one_named_a "A" INPUT).2 = some one_named_a.node_count ∧
      (create_node one_named_a "A" INPUT).1.node_count = one_named_a.node_count + 1 ∧
      ((create_node one_named_a "A" INPUT).1.node one_named_a.node_count).name =
        ((create_node one_named_a "A" INPUT).1.node 0).name ∧
      ∀ j, j < one_named_a.node_count →
        (create_node one_named_a "A" INPUT).1.node j = one_named_a.node j :=
  C15_duplicate_name_accepted one_named_a "A" INPUT 0 (by decide) (by decide) (by decide)

theorem many_inputs_succ (k : Nat) :
    many_inputs (k + 1) = (create_node (many_inputs k) "N" INPUT).1 := by
  unfold many_inputs
  rw [Function.iterate_succ_apply']

theorem many_inputs_count (k : Nat) (hk : k ≤ MAX_NODES) : (many_inputs k).node_count = k := by
  induction k with
  | zero => rfl
  | succ k ih =>
    have h := ih (by omega)
    rw [many_inputs_succ, create_node_count _ _ _ (by rw [h]; omega), h]

theorem many_inputs_built (k : Nat) : Built (many_inputs k) := by
  induction k with
  | zero => exact Built.create
  | succ k ih => rw [many_inputs_succ]; exact Built.node _ "N" INPUT ih

/-- C16: in every reachable circuit `create_node` returns no node if and only if the
circuit already holds `MAX_NODES = 1000` nodes (the test of the code is
`node_count >= MAX_NODES`), and in that case the circuit, so `node_count` and every
existing node, is unchanged. -/
theorem C16_create_node_fails_iff_full (c : Circuit) (hr : Reachable c) (name : String)
    (type : GateType) :
    MAX_NODES = 1000 ∧
      ((create_node c name type).2 = none ↔ MAX_NODES ≤ c.node_count) ∧
      ((create_node c name type).2 = none ↔ c.node_count = MAX_NODES) ∧
      ((create_node c name type).2 = none → (create_node c name type).1 = c) := by
  have hle := hr.wellFormed.count_le
  have hiff : (create_node c name type).2 = none ↔ MAX_NODES ≤ c.node_count := by
    unfold create_node
    split
    · simpa using ‹c.node_count ≥ MAX_NODES›
    · simp; omega
  refine ⟨rfl, hiff, ?_, ?_⟩
  · rw [hiff]; omega
  · unfold create_node
    split
    · intro _; rfl
    · intro h; simp at h

/-- C16 witness: after 1000 successful calls the next `create_node` returns no node
and leaves the circuit unchanged. -/
theorem C16_create_node_fails_iff_full_witness :
    (create_node (many_inputs 1000) "X" OUTPUT).2 = none ∧
      (create_node (many_inputs 1000) "X" OUTPUT).1 = many_inputs 1000 :=
  have h : (create_node (many_inputs 1000) "X" OUTPUT).2 = none :=
    (C16_create_node_fails_iff_full (many_inputs 1000) (many_inputs_built 1000).reachable
      "X" OUTPUT).2.2.1.mpr (many_inputs_count 1000 (by decide))
  ⟨h, (C16_create_node_fails_iff_full (many_inputs 1000) (many_inputs_built 1000).reachable
    "X" OUTPUT).2.2.2 h⟩

/-! ## C17, C18: what `add_connection` refuses -/

theorem add_connection_refused (c : Circuit) (s d : Nat)
    (h : ¬ ((c.node s).outputs.length < 4 ∧ (c.node d).inputs.length < 4)) :
    add_connection c s d = c := by
  unfold add_connection
  rw [if_neg h]

theorem lone_gate_built : Built lone_gate :=
  Built.node _ "G" GATE_AND Built.create

/-- C17, as stated, fails: `add_connection` never compares its arguments; on a
circuit with a single gate, `add_connection(n, n)` puts `n` in both its own fan-in
list and its own fan-out list. -/
theorem C17_counterexample :
    Built lone_gate ∧
      ¬ (((add_connection lone_gate 0 0).node 0).inputs = (lone_gate.node 0).inputs ∧
          ((add_connection lone_gate 0 0).node 0).outputs = (lone_gate.node 0).outputs) := by
  refine ⟨lone_gate_built, ?_⟩
  decide

/-- C17, amended: `add_connection(n, n)` is not rejected: when `n` has fewer than 4
fan-out entries and fewer than 4 fan-in entries it appends `n` to the fan-out list
and to the fan-in list of `n`, so `output_count` and `input_count` both grow by
one. -/
theorem C17_self_loop_accepted (c : Circuit) (n : Nat) (hn : n < c.node_count)
    (hg : (c.node n).outputs.length < 4 ∧ (c.node n).inputs.length < 4) :
    ((add_connection c n n).node n).outputs = (c.node n).outputs ++ [n] ∧
      ((add_connection c n n).node n).inputs = (c.node n).inputs ++ [n] ∧
      ((add_connection c n n).node n).outputs.length = (c.node n).outputs.length + 1 ∧
      ((add_connection c n n).node n).inputs.length = (c.node n).inputs.length + 1 := by
  rw [add_connection_node c n n hn hn hg n]
  simp

/-- C17 witness: the self-connection of the single gate. -/
theorem C17_self_loop_accepted_witness :
    ((add_connection lone_gate 0 0).node 0).outputs = (lone_gate.node 0).outputs ++ [0] ∧
      ((add_connection lone_gate 0 0).node 0).inputs = (lone_gate.node 0).inputs ++ [0] ∧
      ((add_connection lone_gate 0 0).node 0).outputs.length =
        (lone_gate.node 0).outputs.length + 1 ∧
      ((add_connection lone_gate 0 0).node 0).inputs.length =
        (lone_gate.node 0).inputs.length + 1 :=
  C17_self_loop_accepted lone_gate 0 (by decide) (by decide)

/-- C18: `add_connection(source, dest)` called when `source` already has 4 fan-out
entries or `dest` already has 4 fan-in entries changes nothing at all, so neither
node is updated on one side only; in every other case it appends `dest` to the
fan-out of `source` and `source` to the fan-in of `dest`, and touches no other
list. -/
theorem C18_add_connection_all_or_nothing (c : Circuit) (s d : Nat) (hs : s < c.node_count)
    (hd : d < c.node_count) :
    ((4 ≤ (c.node s).outputs.length ∨ 4 ≤ (c.node d).inputs.length) →
      add_connection c s d = c) ∧
    (((c.node s).outputs.length < 4 ∧ (c.node d).inputs.length < 4) →
      ((add_connection c s d).node s).outputs = (c.node s).outputs ++ [d] ∧
      ((add_connection c s d).node d).inputs = (c.node d).inputs ++ [s] ∧
      (∀ j, j ≠ s → ((add_connection c s d).node j).outputs = (c.node j).outputs) ∧
      (∀ j, j ≠ d → ((add_connection c s d).node j).inputs = (c.node j).inputs)) := by
  constructor
  · intro h
    exact add_connection_refused c s d (by omega)
  · intro hg
    refine ⟨?_, ?_, ?_, ?_⟩
    · rw [add_connection_node c s d hs hd hg s]; simp
    · rw [add_connection_node c s d hs hd hg d]; simp
    · intro j hj; rw [add_connection_node c s d hs hd hg j]; simp [hj]
    · intro j hj; rw [add_connection_node c s d hs hd hg j]; simp [hj]

/-- C18 witness: on the sample circuit AND1 (index 2) has room for one more fan-out
entry and OUT (index 4) for one more fan-in entry. -/
theorem C18_add_connection_all_or_nothing_witness :
    ((add_connection sample_circuit 2 4).node 2).outputs =
        (sample_circuit.node 2).outputs ++ [4] ∧
      ((add_connection sample_circuit 2 4).node 4).inputs =
        (sample_circuit.node 4).inputs ++ [2] ∧
      (∀ j, j ≠ 2 →
        ((add_connection sample_circuit 2 4).node j).outputs = (sample_circuit.node j).outputs) ∧
      (∀ j, j ≠ 4 →
        ((add_connection sample_circuit 2 4).node j).inputs = (sample_circuit.node j).inputs) :=
  (C18_add_connection_all_or_nothing sample_circuit 2 4 (by decide) (by decide)).2
    (by decide)

/-! ## C19, C20: the two sides of a connection -/

theorem degreeBounded_create : DegreeBounded create_circuit := by
  intro j
  rw [create_circuit_node]
  exact ⟨Nat.zero_le _, Nat.zero_le _⟩

theorem degreeBounded_create_node {c : Circuit} (h : DegreeBounded c) (name : String)
    (type : GateType) : DegreeBounded (create_node c name type).1 := by
  by_cases hc : c.node_count < MAX_NODES
  · intro j
    rw [create_node_node c name type hc]
    split
    · exact ⟨Nat.zero_le _, Nat.zero_le _⟩
    · exact h j
  · rw [create_node_full c name type (by omega)]; exact h

theorem degreeBounded_add_connection {c : Circuit} (h : DegreeBounded c) (s d : Nat)
    (hs : s < c.node_count) (hd : d < c.node_count) : DegreeBounded (add_connection c s d) := by
  by_cases hg : (c.node s).outputs.length < 4 ∧ (c.node d).inputs.length < 4
  · intro j
    rw [add_connection_node c s d hs hd hg j]
    have hj := h j
    constructor
    · simp only
      split
      · subst_vars; simp; omega
      · exact hj.1
    · simp only
      split
      · subst_vars; simp; omega
      · exact hj.2
  · rw [add_connection_refused c s d hg]; exact h

theorem degreeBounded_of_timing {c c' : Circuit} (h : SameButTiming c c')
    (hb : DegreeBounded c) : DegreeBounded c' := by
  intro j
  rw [(h.2 j).2.2.2.1, (h.2 j).2.2.2.2]
  exact hb j

theorem Reachable.degreeBounded {c : Circuit} (h : Reachable c) : DegreeBounded c := by
  induction h with
  | create => exact degreeBounded_create
  | node c name type _ ih => exact degreeBounded_create_node ih name type
  | conn c s d _ hs hd ih => exact degreeBounded_add_connection ih s d hs hd
  | arrival c _ ih =>
    exact degreeBounded_of_timing (compute_arrival_times_frame c).arrival_timing ih
  | required c _ ih =>
    exact degreeBounded_of_timing (compute_required_times_frame c).required_timing ih
  | slack c _ ih => exact degreeBounded_of_timing (compute_slack_frame c).slack_timing ih

/-- In every reachable circuit a connection is recorded as often in the fan-out of
its source as in the fan-in of its destination. -/
theorem Reachable.edge_count {c : Circuit} (h : Reachable c) (u v : Nat) :
    (c.node u).outputs.count v = (c.node v).inputs.count u := by
  induction h with
  | create => simp [create_circuit_node, node_default_fields]
  | node c name type _ ih =>
    by_cases hc : c.node_count < MAX_NODES
    · have hnew : (new_node name type).inputs = [] ∧ (new_node name type).outputs = [] :=
        ⟨rfl, rfl⟩
      have hout : (c.node c.node_count).outputs = [] := by
        rw [Circuit.node_of_le _ _ (le_refl _)]; rfl
      have hin : (c.node c.node_count).inputs = [] := by
        rw [Circuit.node_of_le _ _ (le_refl _)]; rfl
      rw [create_node_node c name type hc, create_node_node c name type hc]
      by_cases hu : u = c.node_count <;> by_cases hv : v = c.node_count
      · simp [hu, hv, hnew]
      · subst hu
        simp only [if_true, hv, if_false, hnew.2, List.count_nil]
        rw [← ih, hout, List.count_nil]
      · subst hv
        simp only [if_true, hu, if_false, hnew.1, List.count_nil]
        rw [ih, hin, List.count_nil]
      · simp only [hu, hv, if_false]; exact ih
    · rw [create_node_full c name type (by omega)]; exact ih
  | conn c s d _ hs hd ih =>
    by_cases hg : (c.node s).outputs.length < 4 ∧ (c.node d).inputs.length < 4
    · rw [add_connection_node c s d hs hd hg u, add_connection_node c s d hs hd hg v]
      simp only
      by_cases hu : u = s <;> by_cases hv : v = d <;>
        simp [hu, hv, List.count_append, List.count_singleton, ih] <;> aesop
    · rw [add_connection_refused c s d hg]; exact ih
  | arrival c _ ih =>
    have hf := (compute_arrival_times_frame c).arrival_timing
    rw [(hf.2 u).2.2.2.2, (hf.2 v).2.2.2.1]; exact ih
  | required c _ ih =>
    have hf := (compute_required_times_frame c).required_timing
    rw [(hf.2 u).2.2.2.2, (hf.2 v).2.2.2.1]; exact ih
  | slack c _ ih =>
    have hf := (compute_slack_frame c).slack_timing
    rw [(hf.2 u).2.2.2.2, (hf.2 v).2.2.2.1]; exact ih

theorem double_edge_built : Built double_edge :=
  Built.conn _ 0 1 (Built.conn _ 0 1
    (Built.node _ "NOT1" GATE_NOT (Built.node _ "IN" INPUT Built.create))
    (by decide) (by decide)) (by decide) (by decide)

/-- C19, as stated, fails: `add_connection` does not look for an existing entry;
after two calls `add_connection(IN, NOT1)` the node NOT1 (index 1) occurs twice in
the fan-out of IN (index 0), and IN twice in the fan-in of NOT1. -/
theorem C19_counterexample :
    Built double_edge ∧
      ¬ (∀ u v, (double_edge.node u).outputs.count v ≤ 1 ∧
          (double_edge.node v).inputs.count u ≤ 1) := by
  refine ⟨double_edge_built, fun h => ?_⟩
  have := (h 0 1).1
  revert this
  decide

/-- C19, amended: in every circuit built with `create_node` and `add_connection` a
connection may be recorded several times, but at most 4 times on each side: for
all nodes `u` and `v`, `v` occurs at most 4 times in the fan-out list of `u` and `u`
at most 4 times in the fan-in list of `v`. -/
theorem C19_edge_at_most_four_times (c : Circuit) (hb : Built c) (u v : Nat) :
    (c.node u).outputs.count v ≤ 4 ∧ (c.node v).inputs.count u ≤ 4 := by
  have h := hb.reachable.degreeBounded
  exact ⟨le_trans (List.count_le_length _ _) (h u).2,
    le_trans (List.count_le_length _ _) (h v).1⟩

/-- C19 witness: the doubled connection of `double_edge`. -/
theorem C19_edge_at_most_four_times_witness :
    (double_edge.node 0).outputs.count 1 ≤ 4 ∧ (double_edge.node 1).inputs.count 0 ≤ 4 :=
  C19_edge_at_most_four_times double_edge double_edge_built 0 1

/-- C20: in every circuit built with `create_node` and `add_connection`, fan-out is
the exact inverse of fan-in: for all nodes `u` and `v`, `v` occurs in the fan-out
list of `u` as often as `u` occurs in the fan-in list of `v`. -/
theorem C20_fanout_inverse_of_fanin (c : Circuit) (hb : Built c) (u v : Nat) :
    (c.node u).outputs.count v = (c.node v).inputs.count u :=
  hb.reachable.edge_count u v

/-- C20 witness: the doubled connection of `double_edge` is recorded twice on each
side. -/
theorem C20_fanout_inverse_of_fanin_witness :
    (double_edge.node 0).outputs.count 1 = (double_edge.node 1).inputs.count 0 :=
  C20_fanout_inverse_of_fanin double_edge double_edge_built 0 1

/-! ## C12: the order of the passes -/

theorem compute_arrival_times_order (c : Circuit) :
    compute_arrival_times c = (forward_order c).foldl arrival_step c := rfl

theorem compute_required_times_order (c : Circuit) (k : Nat)
    (h : (find_sink c).2 = some k) :
    compute_required_times c =
      (forward_order c).reverse.foldl required_step (with_deadline c k (find_sink c).1) := by
  rw [compute_required_times_some c k h, forward_order, reverse_foldl_eq_down_from]

theorem indexOf_forward_order (c : Circuit) (i : Nat) (hi : i < c.node_count) :
    (forward_order c).indexOf i = i := by
  unfold forward_order
  have h := List.indexOf_getElem (List.nodup_range c.node_count) i
    (by rw [List.length_range]; exact hi)
  rw [List.getElem_range] at h
  exact h

/-- The forward pass visits the nodes in creation order. -/
theorem processedBefore_iff (c : Circuit) (u v : Nat) (hu : u < c.node_count)
    (hv : v < c.node_count) : ProcessedBefore c u v ↔ u < v := by
  unfold ProcessedBefore
  rw [indexOf_forward_order c u hu, indexOf_forward_order c v hv]

/-- C12, as stated, fails: the passes visit the nodes in creation order; in the
acyclic chain IN → AND1 → NOT1 → OUT whose nodes were created sink first, the
connection from IN (index 3) to AND1 (index 2) has its destination visited first. -/
theorem C12_counterexample :
    Built reversed_chain ∧ Acyclic reversed_chain ∧
      ¬ (∀ u, u < reversed_chain.node_count → ∀ v ∈ (reversed_chain.node u).outputs,
          ProcessedBefore reversed_chain u v) := by
  refine ⟨reversed_chain_built, reversed_chain_acyclic, fun h => ?_⟩
  have h32 := h 3 (by decide) 2 (by decide)
  rw [processedBefore_iff reversed_chain 3 2 (by decide) (by decide)] at h32
  omega

/-- C12, amended: the forward pass visits the nodes in creation order and the
backward pass in the reverse of it; for every circuit built with `create_node` and
`add_connection` whose node-creation order is topological, and every connection
`u -> v` in it, `u` is visited before `v` by the forward pass. -/
theorem C12_creation_order_is_processing_order (c : Circuit) (hb : Built c)
    (ht : Topological c) (u : Nat) (hu : u < c.node_count) (v : Nat)
    (hv : v ∈ (c.node u).outputs) : ProcessedBefore c u v :=
  (processedBefore_iff c u v hu (hb.wf.outputs_lt u v hv)).mpr (ht u hu v hv)

/-- C12 witness: the connection AND1 → NOT1 (indices 2 and 3) of the sample
circuit. -/
theorem C12_creation_order_is_processing_order_witness :
    ProcessedBefore sample_circuit 2 3 :=
  C12_creation_order_is_processing_order sample_circuit sample_built sample_topological
    2 (by decide) 3 (by decide)

/-! ## C13: circuits with a cycle -/

theorem feedback_loop_built : Built feedback_loop :=
  Built.conn _ 2 3 (Built.conn _ 2 1 (Built.conn _ 1 2 (Built.conn _ 0 1
    (Built.node _ "OUT" OUTPUT (Built.node _ "NOT1" GATE_NOT (Built.node _ "AND1" GATE_AND
      (Built.node _ "IN" INPUT Built.create))))
    (by decide) (by decide)) (by decide) (by decide)) (by decide) (by decide))
    (by decide) (by decide)

theorem feedback_loop_hasCycle : HasCycle feedback_loop := by
  refine ⟨[1, 2, 1], ⟨?_, by decide⟩, by decide, by decide⟩
  simp only [List.chain'_cons, List.chain'_singleton, and_true]
  decide

/-- C13, as stated, fails: the passes have no cycle detection and no error outcome;
on the chain whose NOT1 feeds back into AND1 the run completes and overwrites the
timing fields, e.g. OUT (index 3) goes from arrival time 0 to 1.1. -/
theorem C13_counterexample :
    Built feedback_loop ∧ HasCycle feedback_loop ∧
      ¬ (∀ i, i < feedback_loop.node_count →
          ((run_sta feedback_loop).node i).arrival_time = (feedback_loop.node i).arrival_time ∧
          ((run_sta feedback_loop).node i).required_time =
            (feedback_loop.node i).required_time ∧
          ((run_sta feedback_loop).node i).slack = (feedback_loop.node i).slack) := by
  refine ⟨feedback_loop_built, feedback_loop_hasCycle, ?_⟩
  with_unfolding_all decide

theorem run_sta_count (c : Circuit) : (run_sta c).node_count = c.node_count :=
  (run_sta_timing c).1

theorem run_sta_arrival (c : Circuit) (i : Nat) :
    ((run_sta c).node i).arrival_time = ((compute_arrival_times c).node i).arrival_time := by
  unfold run_sta
  rw [(compute_slack_frame _).slack_keeps_arrival,
    (compute_required_times_frame _).required_keeps_arrival]

theorem run_sta_required (c : Circuit) (i : Nat) :
    ((run_sta c).node i).required_time =
      ((compute_required_times (compute_arrival_times c)).node i).required_time := by
  unfold run_sta
  rw [(compute_slack_frame _).slack_keeps_required]

/-- C13, amended: the analysis has no failure outcome. On every circuit that contains
a cycle the three passes complete, leave the node table and every connection
unchanged and write the timing fields: afterwards every node has
`slack = required_time - arrival_time` and a non-negative `arrival_time`, which is 0
at INPUT nodes. -/
theorem C13_cycle_is_analysed (c : Circuit) (hc : HasCycle c) :
    HasCycle (run_sta c) ∧ SameButTiming c (run_sta c) ∧
      ∀ i, i < c.node_count →
        ((run_sta c).node i).slack =
          ((run_sta c).node i).required_time - ((run_sta c).node i).arrival_time ∧
        0 ≤ ((run_sta c).node i).arrival_time ∧
        ((c.node i).type = INPUT → ((run_sta c).node i).arrival_time = 0) := by
  have ht := run_sta_timing c
  refine ⟨?_, ht, fun i hi => ⟨?_, ?_, ?_⟩⟩
  · obtain ⟨l, ⟨hch, hlt⟩, hlen, hends⟩ := hc
    refine ⟨l, ⟨?_, ?_⟩, hlen, hends⟩
    · refine List.Chain'.imp ?_ hch
      intro u v huv
      rw [(ht.2 u).2.2.2.2]; exact huv
    · intro x hx; rw [ht.1]; exact hlt x hx
  · rw [run_sta_slack c i hi, run_sta_required, run_sta_arrival]
  · rw [run_sta_arrival]; exact arrival_nonneg c i
  · intro hty
    rw [run_sta_arrival, arrival_value c i hi, if_pos hty]

/-- C13 witness: the amended claim on the chain with a feedback connection. -/
theorem C13_cycle_is_analysed_witness :
    HasCycle (run_sta feedback_loop) ∧ SameButTiming feedback_loop (run_sta feedback_loop) ∧
      ∀ i, i < feedback_loop.node_count →
        ((run_sta feedback_loop).node i).slack =
          ((run_sta feedback_loop).node i).required_time -
            ((run_sta feedback_loop).node i).arrival_time ∧
        0 ≤ ((run_sta feedback_loop).node i).arrival_time ∧
        ((feedback_loop.node i).type = INPUT →
          ((run_sta feedback_loop).node i).arrival_time = 0) :=
  C13_cycle_is_analysed feedback_loop feedback_loop_hasCycle

/-! ## C11: values left by an earlier run -/

theorem node_eq_of_fields (a b : Node) (h1 : a.name = b.name) (h2 : a.type = b.type)
    (h3 : a.delay = b.delay) (h4 : a.arrival_time = b.arrival_time)
    (h5 : a.required_time = b.required_time) (h6 : a.slack = b.slack)
    (h7 : a.inputs = b.inputs) (h8 : a.outputs = b.outputs) : a = b := by
  cases a; cases b; simp_all

theorem sameButTiming_of_lt (c c' : Circuit) (hn : c'.node_count = c.node_count)
    (h : ∀ j, j < c.node_count →
      (c'.node j).name = (c.node j).name ∧ (c'.node j).type = (c.node j).type ∧
      (c'.node j).delay = (c.node j).delay ∧ (c'.node j).inputs = (c.node j).inputs ∧
      (c'.node j).outputs = (c.node j).outputs) : SameButTiming c c' := by
  refine ⟨hn, fun j => ?_⟩
  by_cases hj : j < c.node_count
  · exact h j hj
  · rw [Circuit.node_of_le c' j (by omega), Circuit.node_of_le c j (by omega)]
    exact ⟨rfl, rfl, rfl, rfl, rfl⟩

theorem lower_required_congr (i s : Nat) (a b : Circuit) (h : SameButSlack a b) :
    SameButSlack (lower_required i a s) (lower_required i b s) := by
  have hreq : ∀ j, (b.node j).required_time = (a.node j).required_time :=
    h.slack_keeps_required
  have hdel : ∀ j, (b.node j).delay = (a.node j).delay := fun j => (h.slack_timing.2 j).2.2.1
  refine ⟨by simp [lower_required, h.1], fun j => ?_⟩
  by_cases hj : j = i
  · subst hj
    by_cases hn : j < a.node_count
    · unfold lower_required
      rw [Circuit.node_setNode_self a j _ hn, Circuit.node_setNode_self b j _ (by rw [h.1]; exact hn),
        hreq j, hreq s, hdel j]
      conv_lhs => rw [h.2 j]
    · unfold lower_required
      rw [Circuit.setNode_of_le a j _ (by omega), Circuit.setNode_of_le b j _ (by rw [h.1]; omega)]
      exact h.2 j
  · rw [lower_required_node_of_ne i j hj, lower_required_node_of_ne i j hj]
    exact h.2 j

theorem foldl_congr_rel {R : Circuit → Circuit → Prop} {step : Circuit → Nat → Circuit}
    (hs : ∀ a b i, R a b → R (step a i) (step b i)) (l : List Nat) (a b : Circuit)
    (h : R a b) : R (l.foldl step a) (l.foldl step b) := by
  induction l generalizing a b with
  | nil => exact h
  | cons x xs ih => exact ih _ _ (hs a b x h)

theorem required_step_congr (a b : Circuit) (i : Nat) (h : SameButSlack a b) :
    SameButSlack (required_step a i) (required_step b i) := by
  have hty : (b.node i).type = (a.node i).type := (h.slack_timing.2 i).2.1
  have hout : (b.node i).outputs = (a.node i).outputs := (h.slack_timing.2 i).2.2.2.2
  unfold required_step
  rw [hty, hout]
  split
  · exact h
  · exact foldl_congr_rel (fun a b s => lower_required_congr i s a b) _ a b h

theorem with_deadline_congr (a b : Circuit) (k : Nat) (T : ℚ) (h : SameButSlack a b) :
    SameButSlack (with_deadline a k T) (with_deadline b k T) := by
  refine ⟨by rw [with_deadline_count, with_deadline_count, h.1], fun j => ?_⟩
  by_cases hj : j = k
  · subst hj
    by_cases hn : j < a.node_count
    · unfold with_deadline
      rw [Circuit.node_setNode_self a j _ hn, Circuit.node_setNode_self b j _ (by rw [h.1]; exact hn)]
      conv_lhs => rw [h.2 j]
    · unfold with_deadline
      rw [Circuit.setNode_of_le a j _ (by omega), Circuit.setNode_of_le b j _ (by rw [h.1]; omega)]
      exact h.2 j
  · rw [with_deadline_node_of_ne _ k j T hj, with_deadline_node_of_ne _ k j T hj]
    exact h.2 j

/-- The backward pass does not read slack fields. -/
theorem compute_required_times_congr (a b : Circuit) (h : SameButSlack a b) :
    SameButSlack (compute_required_times a) (compute_required_times b) := by
  have hsink : find_sink b = find_sink a :=
    find_sink_congr a b h.1 (fun i => ⟨(h.slack_timing.2 i).2.1, h.slack_keeps_arrival i⟩)
  unfold compute_required_times
  rw [hsink, h.1]
  split
  · exact foldl_congr_rel required_step_congr _ _ _ (with_deadline_congr a b _ _ h)
  · exact h

/-- The slack pass overwrites whatever the slack fields held. -/
theorem compute_slack_congr (a b : Circuit) (h : SameButSlack a b) :
    compute_slack b = compute_slack a := by
  have hfa := compute_slack_frame a
  have hfb := compute_slack_frame b
  apply Circuit.ext_node _ _ (by rw [hfb.1, hfa.1, h.1])
  intro j hj
  rw [hfa.1] at hj
  rw [hfb.2 j, hfa.2 j, slack_value b j (by rw [h.1]; exact hj), slack_value a j hj,
    h.slack_keeps_required, h.slack_keeps_arrival]
  conv_lhs => rw [h.2 j]

theorem staged_fresh_built : Built staged_fresh :=
  Built.conn _ 3 4 (Built.conn _ 1 3
    (Built.node _ "OUT2" OUTPUT (Built.node _ "AND1" GATE_AND
      (Built.conn _ 1 2 (Built.conn _ 0 1
        (Built.node _ "OUT1" OUTPUT (Built.node _ "NOT1" GATE_NOT
          (Built.node _ "IN" INPUT Built.create)))
        (by decide) (by decide)) (by decide) (by decide))))
    (by decide) (by decide)) (by decide) (by decide)

theorem staged_rerun_reachable : Reachable staged_rerun :=
  Reachable.conn _ 3 4 (Reachable.conn _ 1 3
    (Reachable.node _ "OUT2" OUTPUT (Reachable.node _ "AND1" GATE_AND
      (Reachable.slack _ (Reachable.required _ (Reachable.arrival _
        (Reachable.conn _ 1 2 (Reachable.conn _ 0 1
          (Reachable.node _ "OUT1" OUTPUT (Reachable.node _ "NOT1" GATE_NOT
            (Reachable.node _ "IN" INPUT Reachable.create)))
          (by decide) (by decide)) (by decide) (by decide)))))))
    (by with_unfolding_all decide) (by with_unfolding_all decide))
    (by with_unfolding_all decide) (by with_unfolding_all decide)

theorem staged_same_structure : SameButTiming staged_fresh staged_rerun :=
  sameButTiming_of_lt _ _ (by with_unfolding_all decide) (by with_unfolding_all decide)

theorem staged_fresh_topological : Topological staged_fresh := by
  unfold Topological; decide

/-- C11, as stated, fails: the passes never reset `required_time`. The circuit
IN → NOT1 → OUT1, NOT1 → AND1 → OUT2 analysed afresh leaves OUT1 (index 2) at the
`DBL_MAX` sentinel; analysed once before AND1 and OUT2 were added, then again, it
leaves OUT1 at the stale 0.3 of the first run. -/
theorem C11_counterexample :
    Reachable staged_fresh ∧ Reachable staged_rerun ∧
      SameButTiming staged_fresh staged_rerun ∧
      ¬ (∀ i, i < staged_fresh.node_count →
          ((run_sta staged_rerun).node i).arrival_time =
            ((run_sta staged_fresh).node i).arrival_time ∧
          ((run_sta staged_rerun).node i).required_time =
            ((run_sta staged_fresh).node i).required_time ∧
          ((run_sta staged_rerun).node i).slack = ((run_sta staged_fresh).node i).slack) := by
  refine ⟨staged_fresh_built.reachable, staged_rerun_reachable, staged_same_structure, ?_⟩
  with_unfolding_all decide

/-- C11, amended: for every two circuits with the same nodes, kinds, delays and
connections whose node-creation order is topological and which hold the same
`required_time` values before the run (for example both the `DBL_MAX` sentinel), the
run yields the same circuit, so the same `arrival_time`, `required_time` and `slack`
for every node, whatever `arrival_time` and `slack` values an earlier run left. -/
theorem C11_run_forgets_arrival_and_slack (c c' : Circuit) (hr : Reachable c)
    (ht : Topological c) (hs : SameButTiming c c')
    (hreq : ∀ j, (c'.node j).required_time = (c.node j).required_time) :
    run_sta c' = run_sta c := by
  have ho := hr.wellFormed.faninOrdered ht
  have hfa := compute_arrival_times_frame c
  have hfa' := compute_arrival_times_frame c'
  have h1 : SameButSlack (compute_arrival_times c) (compute_arrival_times c') := by
    refine ⟨by rw [hfa'.1, hfa.1, hs.1], fun j => ?_⟩
    have a := hfa.arrival_timing.2 j
    have a' := hfa'.arrival_timing.2 j
    have s := hs.2 j
    apply node_eq_of_fields
    · exact a'.1.trans (s.1.trans a.1.symm)
    · exact a'.2.1.trans (s.2.1.trans a.2.1.symm)
    · exact a'.2.2.1.trans (s.2.2.1.trans a.2.2.1.symm)
    · exact arrival_congr c c' hs ho j
    · exact (hfa'.arrival_keeps_required j).trans
        ((hreq j).trans (hfa.arrival_keeps_required j).symm)
    · rfl
    · exact a'.2.2.2.1.trans (s.2.2.2.1.trans a.2.2.2.1.symm)
    · exact a'.2.2.2.2.trans (s.2.2.2.2.trans a.2.2.2.2.symm)
  unfold run_sta
  exact compute_slack_congr _ _ (compute_required_times_congr _ _ h1)

/-- C11 witness: the sample circuit after a first run holds the same `required_time`
values as after a second one, so a further run cannot tell them apart. -/
theorem C11_run_forgets_arrival_and_slack_witness :
    run_sta (compute_slack sample_circuit) = run_sta sample_circuit :=
  C11_run_forgets_arrival_and_slack sample_circuit (compute_slack sample_circuit)
    sample_reachable sample_topological (compute_slack_frame sample_circuit).slack_timing
    (compute_slack_frame sample_circuit).slack_keeps_required

/-! ## C14: the critical path -/

theorem first_below_none (p : Nat → Bool) (n : Nat) (h : first_below p n = none) :
    ∀ j, j < n → p j = false := by
  induction n with
  | zero => intro j hj; omega
  | succ n ih =>
    unfold first_below at h
    rcases hn : first_below p n with _ | k
    · rw [hn] at h
      simp only at h
      intro j hj
      rcases Nat.lt_succ_iff_lt_or_eq.mp hj with h1 | h1
      · exact ih hn j h1
      · subst h1
        by_contra hpj
        rw [if_pos (by simpa using hpj)] at h
        simp at h
    · rw [hn] at h; simp at h

theorem first_below_some (p : Nat → Bool) (n i : Nat) (h : first_below p n = some i) :
    i < n ∧ p i = true ∧ ∀ j, j < i → p j = false := by
  induction n with
  | zero => simp [first_below] at h
  | succ n ih =>
    unfold first_below at h
    rcases hn : first_below p n with _ | k
    · rw [hn] at h
      simp only at h
      by_cases hpn : p n = true
      · rw [if_pos hpn] at h
        simp only [Option.some.injEq] at h
        subst h
        exact ⟨Nat.lt_succ_self _, hpn, first_below_none p n hn⟩
      · rw [if_neg hpn] at h; simp at h
    · rw [hn] at h
      simp only [Option.some.injEq] at h
      subst h
      obtain ⟨h1, h2, h3⟩ := ih hn
      exact ⟨Nat.lt_succ_of_lt h1, h2, h3⟩

theorem first_below_exists (p : Nat → Bool) (n i : Nat) (hi : i < n) (hp : p i = true) :
    ∃ k, first_below p n = some k := by
  induction n with
  | zero => omega
  | succ n ih =>
    unfold first_below
    rcases hn : first_below p n with _ | k
    · simp only
      rcases Nat.lt_succ_iff_lt_or_eq.mp hi with h | h
      · obtain ⟨k, hk⟩ := ih h
        rw [hn] at hk; simp at hk
      · subst h; rw [if_pos hp]; exact ⟨i, rfl⟩
    · exact ⟨k, rfl⟩

theorem critical_pred_some (c : Circuit) (v p : Nat) (h : critical_pred c v = some p) :
    p < c.node_count ∧ IsCriticalStep c p v := by
  obtain ⟨h1, h2, h3⟩ := first_below_some _ _ _ h
  simp only [decide_eq_true_eq] at h2
  refine ⟨h1, h2.1, h2.2, fun q hq heq => ?_⟩
  by_contra hlt
  have := h3 q (by omega)
  simp only [decide_eq_false_iff_not] at this
  exact this ⟨hq, heq⟩

theorem critical_pred_exists (c : Circuit) (v q : Nat) (hq : q < c.node_count)
    (hin : q ∈ (c.node v).inputs)
    (heq : (c.node v).arrival_time = (c.node q).arrival_time + (c.node q).delay) :
    ∃ p, critical_pred c v = some p :=
  first_below_exists _ _ q hq (by simp only [decide_eq_true_eq]; exact ⟨hin, heq⟩)

theorem walk_back_valid (c : Circuit) (fuel : Nat) :
    ∀ v l, v < c.node_count → walk_back c fuel v = some l →
      (∃ a, l.head? = some a ∧ a < c.node_count ∧ (c.node a).type = INPUT) ∧
        l.getLast? = some v ∧ List.Chain' (IsCriticalStep c) l := by
  induction fuel with
  | zero => intro v l _ h; simp [walk_back] at h
  | succ fuel ih =>
    intro v l hv h
    unfold walk_back at h
    split at h
    · simp only [Option.some.injEq] at h
      subst h
      exact ⟨⟨v, rfl, hv, ‹(c.node v).type = INPUT›⟩, rfl, List.chain'_singleton v⟩
    · rcases hp : critical_pred c v with _ | p
      · rw [hp] at h; simp at h
      · rw [hp] at h
        simp only [Option.map_eq_some'] at h
        obtain ⟨l', hl', rfl⟩ := h
        obtain ⟨hpn, hstep⟩ := critical_pred_some c v p hp
        obtain ⟨⟨a, ha, han, hat⟩, hlast, hch⟩ := ih p l' hpn hl'
        refine ⟨⟨a, ?_, han, hat⟩, by simp, ?_⟩
        · cases l' with
          | nil => simp at ha
          | cons x xs => simpa using ha
        · apply List.Chain'.append hch (List.chain'_singleton v)
          intro x hx y hy
          rw [hlast] at hx
          simp only [List.head?_cons, Option.mem_def, Option.some.injEq] at hx hy
          subst hx; subst hy
          exact hstep

theorem min_slack_output_some (c : Circuit) (o : Nat) (h : min_slack_output c = some o) :
    o < c.node_count ∧ (c.node o).type = OUTPUT ∧
      ∀ j, j < c.node_count → (c.node j).type = OUTPUT →
        (c.node o).slack ≤ (c.node j).slack := by
  obtain ⟨h1, h2, -⟩ := first_below_some _ _ _ h
  simp only [decide_eq_true_eq] at h2
  exact ⟨h1, h2⟩

theorem min_slack_output_exists (c : Circuit) (o : Nat) (ho : o < c.node_count)
    (hty : (c.node o).type = OUTPUT) : ∃ k, min_slack_output c = some k := by
  have hne : ((Finset.range c.node_count).filter
      (fun j => (c.node j).type = OUTPUT)).Nonempty :=
    ⟨o, by simp [ho, hty]⟩
  obtain ⟨m, hm, hmin⟩ := Finset.exists_min_image _ (fun j => (c.node j).slack) hne
  simp only [Finset.mem_filter, Finset.mem_range] at hm hmin
  exact first_below_exists _ _ m hm.1 (by
    simp only [decide_eq_true_eq]
    exact ⟨hm.2, fun j hj hjo => hmin j ⟨hj, hjo⟩⟩)

/-- Every path the walk reports is a critical path. -/
theorem find_critical_paths_valid (c : Circuit) (l : List Nat)
    (h : find_critical_paths c = some l) : IsCriticalPath c l := by
  unfold find_critical_paths at h
  rcases ho : min_slack_output c with _ | o
  · rw [ho] at h; simp at h
  · rw [ho] at h
    simp only at h
    obtain ⟨hon, hoty, homin⟩ := min_slack_output_some c o ho
    obtain ⟨hhead, hlast, hch⟩ := walk_back_valid c _ o l hon h
    exact ⟨hhead, ⟨o, hlast, hon, hoty, homin⟩, hch⟩

theorem walk_back_exists (c : Circuit) (ho : FaninOrdered c)
    (hlt : ∀ v, ∀ p ∈ (c.node v).inputs, p < c.node_count)
    (hstep : ∀ v, v < c.node_count → (c.node v).type ≠ INPUT →
      ∃ q ∈ (c.node v).inputs,
        (c.node v).arrival_time = (c.node q).arrival_time + (c.node q).delay)
    (fuel : Nat) :
    ∀ v, v < fuel → v < c.node_count → ∃ l, walk_back c fuel v = some l := by
  induction fuel with
  | zero => intro v hv; omega
  | succ fuel ih =>
    intro v hvf hv
    unfold walk_back
    split
    · exact ⟨[v], rfl⟩
    · obtain ⟨q, hq, heq⟩ := hstep v hv ‹¬(c.node v).type = INPUT›
      obtain ⟨p, hp⟩ := critical_pred_exists c v q (hlt v q hq) hq heq
      obtain ⟨hpn, hpin, -⟩ := critical_pred_some c v p hp
      have hpv : p < v := ho v p hpin
      obtain ⟨l', hl'⟩ := ih p (by omega) hpn
      rw [hp]
      simp only
      rw [hl']
      exact ⟨l' ++ [v], rfl⟩

theorem chain'_snoc_last {R : Nat → Nat → Prop} (l : List Nat) (p x : Nat)
    (hl : l.getLast? = some p) (h : List.Chain' R (l ++ [x])) : R p x := by
  rw [List.chain'_append] at h
  exact h.2.2 p (by rw [hl]; rfl) x (by simp)

theorem sample_critical_path :
    find_critical_paths (run_sta sample_circuit) = some [0, 2, 3, 4] := by
  with_unfolding_all decide

theorem reversed_chain_no_report : find_critical_paths (run_sta reversed_chain) = none := by
  with_unfolding_all decide

/-- C14, as stated, fails: in the chain IN → AND1 → NOT1 → OUT whose nodes were
created sink first, the analysed circuit has no critical path at all. Its only
OUTPUT node OUT (index 0) has arrival time 0.3, while its only predecessor NOT1
(index 1) has arrival time 0.5 and delay 0.3; so no path ending at OUT satisfies
the step equation, and the walk reports nothing. -/
theorem C14_counterexample :
    Built reversed_chain ∧ Acyclic reversed_chain ∧
      find_critical_paths (run_sta reversed_chain) = none ∧
      ¬ ∃ l, IsCriticalPath (run_sta reversed_chain) l := by
  refine ⟨reversed_chain_built, reversed_chain_acyclic, reversed_chain_no_report, ?_⟩
  rintro ⟨l, ⟨a, ha, han, hat⟩, ⟨o, ho, hon, hoty, -⟩, hch⟩
  have hn : (run_sta reversed_chain).node_count = 4 := by with_unfolding_all decide
  have ho0 : o = 0 := by
    rw [hn] at hon
    interval_cases o
    · rfl
    · revert hoty; with_unfolding_all decide
    · revert hoty; with_unfolding_all decide
    · revert hoty; with_unfolding_all decide
  subst ho0
  rcases List.eq_nil_or_concat l with hl | ⟨L, b, hl⟩
  · subst hl; simp at ha
  · rw [List.concat_eq_append] at hl
    subst hl
    have hb : b = 0 := by simpa using ho
    subst hb
    rcases List.eq_nil_or_concat L with hL | ⟨L', p, hL⟩
    · subst hL
      have : a = 0 := by simpa using ha.symm
      subst this
      revert hat; with_unfolding_all decide
    · rw [List.concat_eq_append] at hL
      subst hL
      have hstep := chain'_snoc_last (L' ++ [p]) p 0 (by simp) hch
      have hin0 : ((run_sta reversed_chain).node 0).inputs = [1] := by
        with_unfolding_all decide
      have hp1 : p = 1 := by
        have := hstep.1
        rw [hin0] at this
        simpa using this
      subst hp1
      have := hstep.2.1
      revert this
      with_unfolding_all decide

/-- C14, amended: for every reachable circuit whose node-creation order is
topological, whose nodes without fan-in are exactly the INPUT nodes and which has
an OUTPUT node, the walk of §4.5 over the analysed circuit reports a critical path:
it starts at an INPUT node, ends at an OUTPUT node of minimum slack, and every
consecutive pair `(a, b)` on it satisfies `arrival_time(b) = arrival_time(a) +
delay(a)`, `a` being the lowest-indexed predecessor of `b` that does. -/
theorem C14_critical_path_reported (c : Circuit) (hr : Reachable c) (ht : Topological c)
    (hin : ∀ v, v < c.node_count → ((c.node v).inputs = [] ↔ (c.node v).type = INPUT))
    (hout : ∃ o, o < c.node_count ∧ (c.node o).type = OUTPUT) :
    ∃ l, find_critical_paths (run_sta c) = some l ∧ IsCriticalPath (run_sta c) l := by
  have w := hr.wellFormed
  have hts := run_sta_timing c
  have ho' : FaninOrdered (run_sta c) :=
    FaninOrdered.faninOrdered_of_timing hts (w.faninOrdered ht)
  have hlt : ∀ v, ∀ p ∈ ((run_sta c).node v).inputs, p < (run_sta c).node_count := by
    intro v p hp
    rw [(hts.2 v).2.2.2.1] at hp
    rw [hts.1]
    exact w.inputs_lt v p hp
  have hstep : ∀ v, v < (run_sta c).node_count → ((run_sta c).node v).type ≠ INPUT →
      ∃ q ∈ ((run_sta c).node v).inputs,
        ((run_sta c).node v).arrival_time =
          ((run_sta c).node q).arrival_time + ((run_sta c).node q).delay := by
    intro v hv hty
    rw [hts.1] at hv
    rw [(hts.2 v).2.1] at hty
    have hne : (c.node v).inputs ≠ [] := fun h => hty ((hin v hv).mp h)
    obtain ⟨q, hq, heq⟩ := (arrival_at_gate c w ht v hv hty hne).2
    refine ⟨q, by rw [(hts.2 v).2.2.2.1]; exact hq, ?_⟩
    rw [run_sta_arrival, run_sta_arrival, (hts.2 q).2.2.1]
    exact heq
  obtain ⟨o, hon, hoty⟩ := hout
  obtain ⟨k, hk⟩ := min_slack_output_exists (run_sta c) o (by rw [hts.1]; exact hon)
    (by rw [(hts.2 o).2.1]; exact hoty)
  have hkn := (min_slack_output_some _ k hk).1
  obtain ⟨l, hl⟩ := walk_back_exists (run_sta c) ho' hlt hstep _ k hkn hkn
  have hfind : find_critical_paths (run_sta c) = some l := by
    unfold find_critical_paths
    rw [hk]
    exact hl
  exact ⟨l, hfind, find_critical_paths_valid _ l hfind⟩

/-- C14 witness: the amended claim on the sample circuit, whose reported critical
path is IN1 → AND1 → NOT1 → OUT. -/
theorem C14_critical_path_reported_witness :
    ∃ l, find_critical_paths (run_sta sample_circuit) = some l ∧
      IsCriticalPath (run_sta sample_circuit) l :=
  C14_critical_path_reported sample_circuit sample_reachable sample_topological
    (by decide) ⟨4, by decide, by decide⟩

/-! ## C21 to C24: what the operations leave unchanged -/

theorem create_node_some (c : Circuit) (name : String) (type : GateType) (i : Nat)
    (h : (create_node c name type).2 = some i) :
    i = c.node_count ∧ c.node_count < MAX_NODES := by
  unfold create_node at h
  split at h
  · simp at h
  · simp only [Option.some.injEq] at h
    exact ⟨h.symm, by omega⟩

theorem add_connection_keeps (c : Circuit) (s d : Nat) (hs : s < c.node_count)
    (hd : d < c.node_count) (j : Nat) :
    ((add_connection c s d).node j).name = (c.node j).name ∧
      ((add_connection c s d).node j).type = (c.node j).type ∧
      ((add_connection c s d).node j).delay = (c.node j).delay ∧
      ((add_connection c s d).node j).arrival_time = (c.node j).arrival_time ∧
      ((add_connection c s d).node j).required_time = (c.node j).required_time ∧
      ((add_connection c s d).node j).slack = (c.node j).slack := by
  by_cases hg : (c.node s).outputs.length < 4 ∧ (c.node d).inputs.length < 4
  · rw [add_connection_node c s d hs hd hg j]
    exact ⟨rfl, rfl, rfl, rfl, rfl, rfl⟩
  · rw [add_connection_refused c s d hg]
    exact ⟨rfl, rfl, rfl, rfl, rfl, rfl⟩

/-- C21: node indices are stable. A successful `create_node` stores the new node at
the index equal to the previous `node_count`, increases `node_count` by exactly one
and leaves every previously created node at its index with unchanged contents;
`add_connection` changes neither `node_count` nor the name, kind, delay or timing
fields found at any index; and the three analysis passes change neither
`node_count` nor the name, kind, delay and connections found at any index. -/
theorem C21_node_indices_stable (c : Circuit) :
    (∀ name type i, (create_node c name type).2 = some i →
      i = c.node_count ∧ (create_node c name type).1.node_count = c.node_count + 1 ∧
      (create_node c name type).1.node i = new_node name type ∧
      ∀ j, j < c.node_count → (create_node c name type).1.node j = c.node j) ∧
    (∀ s d, s < c.node_count → d < c.node_count →
      (add_connection c s d).node_count = c.node_count ∧
      ∀ j, ((add_connection c s d).node j).name = (c.node j).name ∧
        ((add_connection c s d).node j).type = (c.node j).type ∧
        ((add_connection c s d).node j).delay = (c.node j).delay ∧
        ((add_connection c s d).node j).arrival_time = (c.node j).arrival_time ∧
        ((add_connection c s d).node j).required_time = (c.node j).required_time ∧
        ((add_connection c s d).node j).slack = (c.node j).slack) ∧
    SameButTiming c (compute_arrival_times c) ∧
    SameButTiming c (compute_required_times c) ∧
    SameButTiming c (compute_slack c) := by
  refine ⟨?_, ?_, (compute_arrival_times_frame c).arrival_timing,
    (compute_required_times_frame c).required_timing, (compute_slack_frame c).slack_timing⟩
  · intro name type i h
    obtain ⟨hi, hroom⟩ := create_node_some c name type i h
    subst hi
    exact ⟨rfl, create_node_count c name type hroom, create_node_node_new c name type hroom,
      fun j hj => create_node_node_lt c name type j hj⟩
  · intro s d hs hd
    exact ⟨add_connection_count c s d, add_connection_keeps c s d hs hd⟩

/-- C21 witness: on the sample circuit a sixth node lands at index 5 and the
connection AND1 → OUT moves no node. -/
theorem C21_node_indices_stable_witness :
    (5 = sample_circuit.node_count ∧
      (create_node sample_circuit "X" GATE_XOR).1.node_count = sample_circuit.node_count + 1 ∧
      (create_node sample_circuit "X" GATE_XOR).1.node 5 = new_node "X" GATE_XOR ∧
      ∀ j, j < sample_circuit.node_count →
        (create_node sample_circuit "X" GATE_XOR).1.node j = sample_circuit.node j) ∧
    (add_connection sample_circuit 2 4).node_count = sample_circuit.node_count :=
  ⟨(C21_node_indices_stable sample_circuit).1 "X" GATE_XOR 5 (by decide),
    ((C21_node_indices_stable sample_circuit).2.1 2 4 (by decide) (by decide)).1⟩

/-- C22: in every circuit built with `create_node` and `add_connection` every node
has `input_count <= 4` and `output_count <= 4` and the circuit has
`node_count <= MAX_NODES = 1000`; `add_connection` writes `outputs[output_count]`
and `inputs[input_count]` only when both counts are below 4, and `create_node`
writes `nodes[node_count]` only when `node_count` is below 1000, so every write is
within the array bounds. -/
theorem C22_counts_within_bounds (c : Circuit) (hb : Built c) :
    MAX_NODES = 1000 ∧ c.node_count ≤ MAX_NODES ∧
      (∀ j, (c.node j).inputs.length ≤ 4 ∧ (c.node j).outputs.length ≤ 4) ∧
      (∀ s d, add_connection c s d ≠ c →
        (c.node s).outputs.length < 4 ∧ (c.node d).inputs.length < 4) ∧
      (∀ name type, (create_node c name type).1 ≠ c → c.node_count < MAX_NODES) := by
  refine ⟨rfl, hb.wf.count_le, hb.reachable.degreeBounded, ?_, ?_⟩
  · intro s d h
    by_contra hg
    exact h (add_connection_refused c s d hg)
  · intro name type h
    by_contra hfull
    exact h (by rw [create_node_full c name type (by omega)])

/-- C22 witness: the bounds on the sample circuit. -/
theorem C22_counts_within_bounds_witness :
    MAX_NODES = 1000 ∧ sample_circuit.node_count ≤ MAX_NODES ∧
      (∀ j, (sample_circuit.node j).inputs.length ≤ 4 ∧
        (sample_circuit.node j).outputs.length ≤ 4) ∧
      (∀ s d, add_connection sample_circuit s d ≠ sample_circuit →
        (sample_circuit.node s).outputs.length < 4 ∧
          (sample_circuit.node d).inputs.length < 4) ∧
      (∀ name type, (create_node sample_circuit name type).1 ≠ sample_circuit →
        sample_circuit.node_count < MAX_NODES) :=
  C22_counts_within_bounds sample_circuit sample_built

/-- C23: the analysis passes never mutate topology. Each of
`compute_arrival_times`, `compute_required_times` and `compute_slack` leaves
`node_count` and the name, kind, delay, fan-in list and fan-out list of every node
unchanged; moreover `compute_arrival_times` changes only `arrival_time` fields,
`compute_required_times` only `required_time` fields and `compute_slack` only
`slack` fields. -/
theorem C23_passes_keep_topology (c : Circuit) :
    SameButArrival c (compute_arrival_times c) ∧
      SameButRequired c (compute_required_times c) ∧
      SameButSlack c (compute_slack c) ∧
      SameButTiming c (compute_arrival_times c) ∧
      SameButTiming c (compute_required_times c) ∧
      SameButTiming c (compute_slack c) :=
  ⟨compute_arrival_times_frame c, compute_required_times_frame c, compute_slack_frame c,
    (compute_arrival_times_frame c).arrival_timing,
    (compute_required_times_frame c).required_timing,
    (compute_slack_frame c).slack_timing⟩

theorem new_node_delay (name : String) (type : GateType) :
    (new_node name type).delay = spec_delay type := by
  cases type <;> simp [new_node, spec_delay] <;> norm_num

theorem spec_delay_nonneg (type : GateType) : 0 ≤ spec_delay type := by
  cases type <;> simp [spec_delay] <;> norm_num

/-- C24: `create_node` gives the new node the delay of the table, which depends only
on its kind and is non-negative (AND 0.5, OR 0.6, NOT 0.3, NAND 0.4, NOR 0.5,
XOR 0.7, INPUT 0.0, OUTPUT 0.2), and no later operation changes the delay of a node:
neither a further `create_node`, nor `add_connection`, nor any of the three
passes. -/
theorem C24_delay_fixed_by_kind (c : Circuit) :
    (∀ name type i, (create_node c name type).2 = some i →
      ((create_node c name type).1.node i).delay = spec_delay type ∧
      0 ≤ ((create_node c name type).1.node i).delay) ∧
    (∀ name type j, j < c.node_count →
      ((create_node c name type).1.node j).delay = (c.node j).delay) ∧
    (∀ s d j, s < c.node_count → d < c.node_count →
      ((add_connection c s d).node j).delay = (c.node j).delay) ∧
    (∀ j, ((compute_arrival_times c).node j).delay = (c.node j).delay) ∧
    (∀ j, ((compute_required_times c).node j).delay = (c.node j).delay) ∧
    (∀ j, ((compute_slack c).node j).delay = (c.node j).delay) := by
  refine ⟨?_, ?_, ?_, ?_, ?_, ?_⟩
  · intro name type i h
    obtain ⟨hi, hroom⟩ := create_node_some c name type i h
    subst hi
    rw [create_node_node_new c name type hroom, new_node_delay]
    exact ⟨rfl, spec_delay_nonneg type⟩
  · intro name type j hj
    rw [create_node_node_lt c name type j hj]
  · intro s d j hs hd
    exact (add_connection_keeps c s d hs hd j).2.2.1
  · intro j; exact ((compute_arrival_times_frame c).arrival_timing.2 j).2.2.1
  · intro j; exact ((compute_required_times_frame c).required_timing.2 j).2.2.1
  · intro j; exact ((compute_slack_frame c).slack_timing.2 j).2.2.1

/-- C24 witness: an XOR gate added to the sample circuit gets delay 0.7. -/
theorem C24_delay_fixed_by_kind_witness :
    ((create_node sample_circuit "X" GATE_XOR).1.node 5).delay = spec_delay GATE_XOR ∧
      0 ≤ ((create_node sample_circuit "X" GATE_XOR).1.node 5).delay :=
  (C24_delay_fixed_by_kind sample_circuit).1 "X" GATE_XOR 5 (by decide)

/-! ## C25 to C29: single facts about the passes -/

theorem driven_input_built : Built driven_input :=
  Built.conn _ 0 1
    (Built.node _ "IN" INPUT (Built.node _ "NOT1" GATE_NOT Built.create))
    (by decide) (by decide)

theorem dangling_gate_built : Built dangling_gate :=
  Built.conn _ 0 3 (Built.conn _ 1 2 (Built.conn _ 0 1
    (Built.node _ "AND1" GATE_AND (Built.node _ "OUT" OUTPUT (Built.node _ "NOT1" GATE_NOT
      (Built.node _ "IN" INPUT Built.create))))
    (by decide) (by decide)) (by decide) (by decide)) (by decide) (by decide)

/-- C25: for every circuit, after `compute_arrival_times` every INPUT node has
`arrival_time` exactly 0, whatever its previous `arrival_time` and whether or not
connections lead into it. -/
theorem C25_input_arrival_zero (c : Circuit) (i : Nat) (hi : i < c.node_count)
    (hty : (c.node i).type = INPUT) :
    ((compute_arrival_times c).node i).arrival_time = 0 := by
  rw [arrival_value c i hi, if_pos hty]

/-- C25 witness: the INPUT node IN (index 1) of `driven_input`, into which the
inverter NOT1 is connected. -/
theorem C25_input_arrival_zero_witness :
    (driven_input.node 1).inputs = [0] ∧
      ((compute_arrival_times driven_input).node 1).arrival_time = 0 :=
  ⟨by decide, C25_input_arrival_zero driven_input 1 (by decide) (by decide)⟩

/-- C26: for every circuit, after `compute_slack` the slack of every node equals its
`required_time` minus its `arrival_time` as they stand at the time of the call, and
these two fields are not changed by the call. -/
theorem C26_slack_is_required_minus_arrival (c : Circuit) (i : Nat) (hi : i < c.node_count) :
    ((compute_slack c).node i).slack = (c.node i).required_time - (c.node i).arrival_time ∧
      ((compute_slack c).node i).required_time = (c.node i).required_time ∧
      ((compute_slack c).node i).arrival_time = (c.node i).arrival_time :=
  ⟨slack_value c i hi, (compute_slack_frame c).slack_keeps_required i,
    (compute_slack_frame c).slack_keeps_arrival i⟩

/-- C26 witness: the slack of OUT (index 4) of the sample circuit when `compute_slack`
is called on the freshly built circuit. -/
theorem C26_slack_is_required_minus_arrival_witness :
    ((compute_slack sample_circuit).node 4).slack =
        (sample_circuit.node 4).required_time - (sample_circuit.node 4).arrival_time ∧
      ((compute_slack sample_circuit).node 4).required_time =
        (sample_circuit.node 4).required_time ∧
      ((compute_slack sample_circuit).node 4).arrival_time =
        (sample_circuit.node 4).arrival_time :=
  C26_slack_is_required_minus_arrival sample_circuit 4 (by decide)

theorem required_step_no_fanout (c : Circuit) (i : Nat) (h : (c.node i).outputs = []) :
    required_step c i = c := by
  unfold required_step
  split
  · rfl
  · rw [h]; rfl

/-- The backward loop leaves a node without fan-out as it found it. -/
theorem backward_no_fanout (c : Circuit) (i : Nat) (h : (c.node i).outputs = []) :
    (down_from required_step c c.node_count 0).node i = c.node i := by
  by_cases hi : i < c.node_count
  · rw [down_from_node_ge required_step_local c _ 0 i (Nat.zero_le _) hi]
    have hf := down_from_required_frame c c.node_count (i + 1)
    rw [required_step_no_fanout _ i (by rw [(hf.required_timing.2 i).2.2.2.2]; exact h)]
    exact down_from_node_lt required_step_local c _ (i + 1) i (by omega) (by omega)
  · have hf := down_from_required_frame c c.node_count 0
    rw [Circuit.node_of_le _ _ (by rw [hf.1]; omega), Circuit.node_of_le _ _ (by omega)]

/-- The backward pass leaves a non-OUTPUT node without fan-out as it found it. -/
theorem required_no_fanout (c : Circuit) (v : Nat) (hty : (c.node v).type ≠ OUTPUT)
    (h : (c.node v).outputs = []) :
    (compute_required_times c).node v = c.node v := by
  rcases hk : (find_sink c).2 with _ | k
  · rw [compute_required_times_none c hk]
  · have hko := (find_sink_some c k hk).2.1
    have hvk : v ≠ k := fun e => hty (e ▸ hko)
    have hfd := (with_deadline_frame c k (find_sink c).1).required_timing
    rw [compute_required_times_some c k hk, ← with_deadline_count c k (find_sink c).1,
      backward_no_fanout _ v (by rw [(hfd.2 v).2.2.2.2]; exact h),
      with_deadline_node_of_ne c k v _ hvk]

/-- C27: on a freshly built circuit, after `compute_arrival_times` and
`compute_required_times` every non-OUTPUT node with no fan-out successors still has
`required_time` equal to the `DBL_MAX` sentinel. -/
theorem C27_no_fanout_keeps_sentinel (c : Circuit) (hb : Built c) (v : Nat)
    (hv : v < c.node_count) (hty : (c.node v).type ≠ OUTPUT)
    (hout : (c.node v).outputs = []) :
    ((compute_required_times (compute_arrival_times c)).node v).required_time = DBL_MAX := by
  have hfa := compute_arrival_times_frame c
  rw [required_no_fanout _ v (by rw [(hfa.arrival_timing.2 v).2.1]; exact hty)
    (by rw [(hfa.arrival_timing.2 v).2.2.2.2]; exact hout),
    hfa.arrival_keeps_required, (hb.fresh v hv).2.1]

/-- C27 witness: the gate AND1 (index 3) of `dangling_gate`, which drives nothing
while OUT is a sink with deadline 0.3. -/
theorem C27_no_fanout_keeps_sentinel_witness :
    ((compute_required_times (compute_arrival_times dangling_gate)).node 3).required_time =
      DBL_MAX :=
  C27_no_fanout_keeps_sentinel dangling_gate dangling_gate_built 3 (by decide) (by decide)
    (by decide)

/-- C28: for every circuit, after `compute_arrival_times` every node that has no
fan-in predecessors has `arrival_time` 0, also when its kind is a gate or OUTPUT
rather than INPUT. -/
theorem C28_no_fanin_arrival_zero (c : Circuit) (i : Nat) (hi : i < c.node_count)
    (hin : (c.node i).inputs = []) :
    ((compute_arrival_times c).node i).arrival_time = 0 := by
  rw [arrival_value c i hi, hin]
  split
  · rfl
  · rfl

/-- C28 witness: the single AND gate of `lone_gate`, which has no connection. -/
theorem C28_no_fanin_arrival_zero_witness :
    (lone_gate.node 0).type = GATE_AND ∧
      ((compute_arrival_times lone_gate).node 0).arrival_time = 0 :=
  ⟨by decide, C28_no_fanin_arrival_zero lone_gate 0 (by decide) (by decide)⟩

/-- C29: for every circuit whose node-creation order is topological, after
`compute_arrival_times` every non-INPUT node with at least one fan-in predecessor
has `arrival_time` equal to the maximum over its predecessors `p` of
`p.arrival_time + p.delay`, regardless of the timing values the nodes held before
the call: `c'` is any circuit with the nodes, kinds, delays and connections of a
reachable circuit `c` and arbitrary timing fields. -/
theorem C29_arrival_is_max_regardless_of_prior (c c' : Circuit) (hr : Reachable c)
    (ht : Topological c) (hs : SameButTiming c c') (v : Nat) (hv : v < c.node_count)
    (hty : (c.node v).type ≠ INPUT) (hne : (c.node v).inputs ≠ []) :
    ArrivalIsMaxAt (compute_arrival_times c') v := by
  have w := hr.wellFormed
  have w' := WellFormed.of_timing hs w
  have ho' : FaninOrdered c' := FaninOrdered.faninOrdered_of_timing hs (w.faninOrdered ht)
  have hf := (compute_arrival_times_frame c').arrival_timing
  exact arrival_is_max_of_ordered c' ho' w'.delay_nonneg v (by rw [hs.1]; exact hv)
    (by rw [(hf.2 v).2.1, (hs.2 v).2.1]; exact hty)
    (by rw [(hf.2 v).2.2.2.1, (hs.2 v).2.2.2.1]; exact hne)

/-- C29 witness: the claim at OUT (index 4) of the sample circuit, run on the circuit
an earlier analysis left. -/
theorem C29_arrival_is_max_regardless_of_prior_witness :
    ArrivalIsMaxAt (compute_arrival_times (run_sta sample_circuit)) 4 :=
  C29_arrival_is_max_regardless_of_prior sample_circuit (run_sta sample_circuit)
    sample_reachable sample_topological (run_sta_timing sample_circuit) 4 (by decide)
    (by decide) (by decide)

/-! ## Slack in exact arithmetic -/

/-- In exact arithmetic, on a first run of a topologically created circuit whose INPUT
nodes have no fan-in, no node ends with its required time below its arrival time.
The statement concerns the rational model only: with rounded `double` arithmetic
`(a + d) - d` may fall below `a`. -/
theorem required_ge_arrival_exact (c : Circuit) (hb : Built c) (ht : Topological c)
    (hin : ∀ v, v < c.node_count → (c.node v).type = INPUT → (c.node v).inputs = []) :
    ∀ m v, v < c.node_count → c.node_count - v = m →
      ((compute_arrival_times c).node v).arrival_time ≤
        ((compute_required_times (compute_arrival_times c)).node v).required_time := by
  have w := hb.wf
  have hgt := DBL_MAX_gt
  have hfa := compute_arrival_times_frame c
  have h700 := arrival_le_700 c w hb.fresh
  rcases hk : (find_sink (compute_arrival_times c)).2 with _ | k
  · intro m v hv _
    rw [compute_required_times_none _ hk, hfa.arrival_keeps_required, (hb.fresh v hv).2.1]
    have := h700 v hv
    linarith
  · obtain ⟨hr1, hr2, hr3⟩ := required_first_run c hb ht k hk
    intro m
    induction m using Nat.strong_induction_on with
    | _ m ih =>
      intro v hv hm
      by_cases hvo : (c.node v).type = OUTPUT
      · by_cases hvk : v = k
        · subst hvk; rw [hr1]
        · rw [hr2 v hv hvk hvo]
          have := h700 v hv
          linarith
      · rw [hr3 v hv hvo]
        rcases foldl_min_attained
          (fun s => ((compute_required_times (compute_arrival_times c)).node s).required_time -
            (c.node v).delay) (c.node v).outputs DBL_MAX with h0 | ⟨s, hs, h⟩
        · rw [h0]
          have := h700 v hv
          linarith
        · rw [h]
          have hvs : v < s := ht v hv s hs
          have hsn : s < c.node_count := w.outputs_lt v s hs
          have hvin : v ∈ (c.node s).inputs := (w.edge_iff v s).mp hs
          have hne : (c.node s).inputs ≠ [] := List.ne_nil_of_mem hvin
          have hsty : (c.node s).type ≠ INPUT := fun e => hne (hin s hsn e)
          have h1 := (arrival_at_gate c w ht s hsn hsty hne).1 v hvin
          have h2 := ih (c.node_count - s) (by omega) s hsn rfl
          linarith

/-- In exact arithmetic, on a first run of a topologically created circuit whose INPUT
nodes have no fan-in, no node has negative slack after the three passes. -/
theorem slack_nonneg_exact (c : Circuit) (hb : Built c) (ht : Topological c)
    (hin : ∀ v, v < c.node_count → (c.node v).type = INPUT → (c.node v).inputs = [])
    (v : Nat) (hv : v < c.node_count) : 0 ≤ ((run_sta c).node v).slack := by
  have h := required_ge_arrival_exact c hb ht hin _ v hv rfl
  rw [run_sta_slack c v hv]
  linarith

end STA
